import Mathlib

/-!
Verification development for the `tainted-storage` Slither detector
(`slither_tainted_storage/detectors/tainted_storage.py`).

The Python analysis is shallowly embedded below.  Host-IR objects
(variables, IR operations, CFG nodes, functions) become inductive data;
Python object identity (`id(...)`) is modelled by an explicit `oid : Nat`
carried by every variable and a `nid : Nat` carried by every CFG node;
Python sets and dicts become lists with membership-based insertion and
first-match association lookup (new entries are consed at the head, so
lookup sees the newest binding, matching dict overwrite semantics).
Loops whose termination relies on a growing visited set are embedded with
an explicit fuel argument; the fuel actually supplied is proved (or argued
in the accompanying lemmas) to be large enough that the cut-off branch is
unreachable, so the functions compute exactly what the Python loops do.
-/

namespace TS

/-- Variables of the host IR.  `stateVar` carries its `canonical_name`;
`composed` is `SolidityVariableComposed` (e.g. `msg.sender`), `solidityVar`
a plain `SolidityVariable`; `constant` is an IR `Constant`; `ref` is a
`ReferenceVariable` whose `points_to_origin` lives in the environment's
`refEnv`; `loc` is any other (local/temporary) variable.  Every constructor
carries the Python object id. -/
inductive Var where
  | stateVar (canonicalName : String) (oid : Nat)
  | composed (name : String) (oid : Nat)
  | solidityVar (name : String) (oid : Nat)
  | constant (oid : Nat)
  | ref (oid : Nat)
  | loc (oid : Nat)
deriving DecidableEq, Repr

/-- Python `id(var)` for the embedded variable. -/
def Var.oid : Var → Nat
  | .stateVar _ o => o
  | .composed _ o => o
  | .solidityVar _ o => o
  | .constant o => o
  | .ref o => o
  | .loc o => o

/-- Keys produced by `_var_key`. -/
inductive VarKey where
  | state (name : String)
  | sol (name : String)
  | obj (oid : Nat)
deriving DecidableEq, Repr

/-- `_var_key`: `state:<canonical_name>` for state variables,
`solidity:<name>` for (composed) solidity variables, object id otherwise. -/
def varKey : Var → VarKey
  | .stateVar n _ => .state n
  | .composed n _ => .sol n
  | .solidityVar n _ => .sol n
  | v => .obj v.oid

/-- Gas-related composed variables treated as taint sources
(`_GAS_COMPOSED_SOURCES`); the label equals the variable name. -/
def gasComposedNames : List String :=
  ["tx.gasprice", "block.basefee", "block.blobbasefee", "block.gaslimit"]

/-- Hashing / ABI-encoding builtins (`_HASH_AND_ENCODE`). -/
def hashAndEncode : List String :=
  ["keccak256()", "keccak256(bytes)", "sha3()", "sha256()", "sha256(bytes)",
   "ripemd160()", "ripemd160(bytes)", "abi.encode()", "abi.encodePacked()",
   "abi.encodeWithSelector()", "abi.encodeWithSignature()", "abi.encodeCall()"]

/-- The IR operations the detector dispatches on.  `solidityCall` carries
the called builtin's name, `internalCall` the callee's canonical name
(`none` models a null / non-`Function` callee), `other` is any further
operation exposing an optional lvalue and a read list. -/
inductive IROp where
  | assignment (lvalue : Var) (rvalue : Var)
  | binary (lvalue : Var) (left : Var) (right : Var)
  | unary (lvalue : Var) (rvalue : Var)
  | typeConversion (lvalue : Var) (varRead : Var)
  | index (lvalue : Var) (left : Var) (right : Var)
  | unpack (lvalue : Var) (tup : Var)
  | solidityCall (fname : String) (arguments : List Var) (lvalue : Option Var)
  | newContract (lvalue : Option Var) (callSalt : Option Var) (arguments : List Var)
  | internalCall (lvalue : Option Var) (callee : Option String) (arguments : List Var)
  | condition (value : Var)
  | other (lvalue : Option Var) (reads : List Var)
deriving DecidableEq, Repr

/-- The host's `ir.read` list.  For `newContract` the constructor arguments
and the salt are read. -/
def IROp.read : IROp → List Var
  | .assignment _ rv => [rv]
  | .binary _ l r => [l, r]
  | .unary _ rv => [rv]
  | .typeConversion _ v => [v]
  | .index _ l r => [l, r]
  | .unpack _ t => [t]
  | .solidityCall _ args _ => args
  | .newContract _ salt args => args ++ salt.toList
  | .internalCall _ _ args => args
  | .condition v => [v]
  | .other _ reads => reads

/-- The host's `ir.lvalue` (as an option; `none` = Python `None`). -/
def IROp.lvalueOpt : IROp → Option Var
  | .assignment lv _ => some lv
  | .binary lv _ _ => some lv
  | .unary lv _ => some lv
  | .typeConversion lv _ => some lv
  | .index lv _ _ => some lv
  | .unpack lv _ => some lv
  | .solidityCall _ _ lv => lv
  | .newContract lv _ _ => lv
  | .internalCall lv _ _ => lv
  | .condition _ => none
  | .other lv _ => lv

/-- `isinstance(ir, OperationWithLValue)`: every operation except
`Condition` (and conditions never carry an lvalue). -/
def IROp.isOpWithLV : IROp → Bool
  | .condition _ => false
  | _ => true

/-- `isinstance(v, Constant)`. -/
def isConstantVar : Var → Bool
  | .constant _ => true
  | _ => false

/-- Node types the analysis distinguishes; every other host node type is
`OTHER`. -/
inductive NodeTy where
  | IF
  | IFLOOP
  | ENDIF
  | OTHER
deriving DecidableEq, Repr

/-- A CFG node: Python id, type, ordered IR operations, successor node ids
(`sons`) and the host-provided `state_variables_written` (by canonical
name). -/
structure IRNode where
  nid : Nat
  typ : NodeTy
  irs : List IROp
  sons : List Nat
  stateVariablesWritten : List String
deriving DecidableEq, Repr

/-- A function (or modifier): canonical name, ordered CFG nodes, declaring
contract, implementation flag. -/
structure Func where
  canonicalName : String
  nodes : List IRNode
  contractDeclarer : Option String
  isImplemented : Bool
deriving DecidableEq, Repr

/-- The analysis environment: the compilation unit's function table (used
to resolve internal-call targets) and the `points_to_origin` map for
reference variables (by the reference's object id). -/
structure Env where
  funcs : List Func
  refEnv : List (Nat × Var)
deriving DecidableEq, Repr

/-- Resolve an internal callee by canonical name (`ir.function` together
with the `hasattr(callee, "nodes")` guard). -/
def lookupFunc (env : Env) (nm : String) : Option Func :=
  env.funcs.find? (fun g => g.canonicalName == nm)

/-- `points_to_origin` of the reference variable with object id `o`. -/
def lookupOrigin (env : Env) (o : Nat) : Option Var :=
  (env.refEnv.find? (fun p => p.1 == o)).map (fun p => p.2)

/-- The loop body of `_resolve_ref`, with the `seen` set explicit and a
fuel argument.  Each recursive step consumes an id of `refEnv`'s domain
that is not yet in `seen`, so fuel `refEnv.length + 1` is never exhausted
(see `resolveRefCore_fuel_stable`).  A reference whose origin is not in
`refEnv` is returned as-is (such a variable does not occur in a well-formed
host IR). -/
def resolveRefCore (env : Env) : Nat → List Nat → Var → Var × List Nat
  | 0, seen, v => (v, seen)
  | fuel + 1, seen, v =>
    match v with
    | .ref o =>
      if o ∈ seen then (.ref o, seen)
      else
        match lookupOrigin env o with
        | none => (.ref o, seen)
        | some v' => resolveRefCore env fuel (o :: seen) v'
    | v => (v, seen)

/-- `_resolve_ref`: follow the `ReferenceVariable` chain to the origin,
with a cycle guard by object identity. -/
def resolveRef (env : Env) (v : Var) : Var :=
  (resolveRefCore env (env.refEnv.length + 1) [] v).1

/-- Insert into a set-as-list (no-op when already present). -/
def insertKey (k : VarKey) (l : List VarKey) : List VarKey :=
  if k ∈ l then l else k :: l

/-- Insert a Nat into a set-as-list. -/
def insertNat (n : Nat) (l : List Nat) : List Nat :=
  if n ∈ l then l else n :: l

/-- Insert a String into a set-as-list. -/
def insertStr (s : String) (l : List String) : List String :=
  if s ∈ l then l else s :: l

/-- A recorded finding: `(state variable canonical_name, node id, reason)`.
The Python tuple holds the `StateVariable` and `Node` objects, of which
only the canonical name and the node id are ever consumed. -/
abbrev Finding := String × Nat × String

/-- `_FunctionTaintCtx`: per-function mutable analysis state. -/
structure Ctx where
  function : Func
  tainted : List VarKey
  msgSenderAliases : List Nat
  taintedStateWrites : List Finding
  seenWrites : List (String × Nat)
  cachedReason : Option String
deriving DecidableEq, Repr

/-- Fresh context for a function (`_FunctionTaintCtx.__init__`). -/
def initCtx (f : Func) : Ctx :=
  { function := f, tainted := [], msgSenderAliases := [],
    taintedStateWrites := [], seenWrites := [], cachedReason := none }

/-- `ctx.is_tainted`. -/
def Ctx.isTainted (c : Ctx) (v : Var) : Bool :=
  varKey v ∈ c.tainted

/-- `ctx.mark`. -/
def Ctx.mark (c : Ctx) (v : Var) : Ctx :=
  { c with tainted := insertKey (varKey v) c.tainted }

/-- Mark a state variable given by canonical name (`ctx.mark(sv)` where
`sv` is a `StateVariable`, whose key is `state:<canonical_name>`). -/
def Ctx.markStateName (c : Ctx) (n : String) : Ctx :=
  { c with tainted := insertKey (.state n) c.tainted }

/-- `ctx.mark_if_any_tainted` (reads are never `None` in the embedding). -/
def Ctx.markIfAnyTainted (c : Ctx) (lv : Option Var) (reads : List Var) : Ctx :=
  if reads.any c.isTainted then
    match lv with
    | some v => c.mark v
    | none => c
  else c

/-- `ctx.is_msg_sender`: the composed builtin itself, or a recorded alias
by object id (a composed variable other than `msg.sender` is rejected
immediately, mirroring the isinstance branch). -/
def Ctx.isMsgSender (c : Ctx) (v : Var) : Bool :=
  match v with
  | .composed nm _ => nm == "msg.sender"
  | v => v.oid ∈ c.msgSenderAliases

/-- `ctx.mark_msg_sender_alias`. -/
def Ctx.markMsgSenderAlias (c : Ctx) (v : Var) : Ctx :=
  { c with msgSenderAliases := insertNat v.oid c.msgSenderAliases }

/-- Is `v` the composed `msg.sender` builtin? -/
def isMsgSenderBuiltin : Var → Bool
  | .composed nm _ => nm == "msg.sender"
  | _ => false

/-- Is `v` a gas-global composed variable? -/
def isGasComposed : Var → Bool
  | .composed nm _ => nm ∈ gasComposedNames
  | _ => false

/-- `_callee_introduces_taint`: does the function body syntactically
contain a taint source?  Note the balance check only recognises the
literal `msg.sender` composed builtin as the argument. -/
def calleeIntroducesTaint (f : Func) : Bool :=
  f.nodes.any fun n => n.irs.any fun ir =>
    (match ir with
     | .solidityCall fname args _ =>
       (fname == "gasleft()") ||
       ((fname == "balance(address)") &&
         (match args with
          | a :: _ => isMsgSenderBuiltin a
          | [] => false))
     | .newContract _ salt _ => salt.isSome
     | _ => false) ||
    ir.read.any isGasComposed

/-- Lexicographic (code-point) comparison of character lists, matching
Python string `<`. -/
def charListLt : List Char → List Char → Bool
  | [], [] => false
  | [], _ :: _ => true
  | _ :: _, [] => false
  | a :: as, b :: bs =>
    if a < b then true
    else if b < a then false
    else charListLt as bs

/-- Python `<` on strings. -/
def strLtB (a b : String) : Bool :=
  charListLt a.data b.data

/-- Insert into an ascending list (stable: ties keep insertion order). -/
def insStr (x : String) : List String → List String
  | [] => [x]
  | y :: t => if strLtB x y then x :: y :: t else y :: insStr x t

/-- Python `sorted` on a list of strings. -/
def sortStrs (l : List String) : List String :=
  l.foldl (fun acc x => insStr x acc) []

/-- One IR operation of the `_collect_reasons` body scan.  The state is
`(reasons, has_msg_sender_ref, has_non_sender_balance, callees)`. -/
def collectReasonsIR (env : Env) (st : List String × Bool × Bool × List Func)
    (ir : IROp) : List String × Bool × Bool × List Func :=
  let (reasons, hasMS, hasNSB, callees) := st
  let hasMS :=
    match ir with
    | .assignment _ rv => hasMS || isMsgSenderBuiltin rv
    | _ => hasMS
  let reasons := ir.read.foldl
    (fun rs r =>
      match r with
      | .composed nm _ => if nm ∈ gasComposedNames then insertStr nm rs else rs
      | _ => rs) reasons
  match ir with
  | .solidityCall fname args _ =>
    let reasons := if fname == "gasleft()" then insertStr "gasleft()" reasons else reasons
    if fname == "balance(address)" then
      match args with
      | a :: _ =>
        if isMsgSenderBuiltin a then
          (insertStr "msg.sender.balance" reasons, hasMS, hasNSB, callees)
        else (reasons, hasMS, true, callees)
      | [] => (reasons, hasMS, hasNSB, callees)
    else (reasons, hasMS, hasNSB, callees)
  | .newContract _ salt _ =>
    if salt.isSome then (insertStr "CREATE2" reasons, hasMS, hasNSB, callees)
    else (reasons, hasMS, hasNSB, callees)
  | .internalCall _ cname _ =>
    match cname.bind (lookupFunc env) with
    | some g => (reasons, hasMS, hasNSB, callees ++ [g])
    | none => (reasons, hasMS, hasNSB, callees)
  | _ => (reasons, hasMS, hasNSB, callees)

/-- `_collect_reasons`: recursively collect taint-source labels from a
function and its internal callees, with a visited set on canonical names.
A fresh key is added to `visited` on every non-trivial entry, so recursion
depth is bounded by the number of distinct reachable callees and the fuel
used at the top (`env.funcs.length + 2`) is never exhausted. -/
def collectReasons : Nat → Env → List String → List String → Func →
    List String × List String
  | 0, _, reasons, visited, _ => (reasons, visited)
  | fuel + 1, env, reasons, visited, f =>
    let key := f.canonicalName
    if key ∈ visited then (reasons, visited)
    else
      let visited := key :: visited
      let scanned := f.nodes.foldl
        (fun st n => n.irs.foldl (collectReasonsIR env) st)
        (reasons, false, false, ([] : List Func))
      let (reasons, hasMS, hasNSB, callees) := scanned
      let reasons :=
        if hasNSB then
          if hasMS then insertStr "msg.sender.balance" reasons
          else insertStr "address.balance" reasons
        else reasons
      callees.foldl
        (fun acc g => collectReasons fuel env acc.1 acc.2 g)
        (reasons, visited)

/-- The function-level reason string: sorted, comma-joined source labels,
or `"tainted source"` when none were found (`_infer_reason`'s computation,
before memoisation). -/
def reasonString (env : Env) (f : Func) : String :=
  let reasons := (collectReasons (env.funcs.length + 2) env [] [] f).1
  let ordered := sortStrs reasons
  if ordered.isEmpty then "tainted source" else String.intercalate ", " ordered

/-- `_infer_reason`: memoised on the context. -/
def inferReason (env : Env) (c : Ctx) : String × Ctx :=
  match c.cachedReason with
  | some r => (r, c)
  | none =>
    let r := reasonString env c.function
    (r, { c with cachedReason := some r })

/-- The shared `call_taint_cache`. -/
abbrev CTC := List (String × Bool)

/-- The shared `callee_state_cache` (state variables by canonical name). -/
abbrev CSC := List (String × List String)

/-- The signature of `_analyze_function` with both caches threaded.  The
recursive knot is supplied as a parameter to the `*Core` functions and
tied, with fuel, in `analyzeFunction`. -/
abbrev AnalyzeFn := Func → CTC → CSC → Option (List Finding × CTC × CSC)

/-- Dict lookup in `call_taint_cache` (first match = newest binding). -/
def lookupB (ctc : CTC) (k : String) : Option Bool :=
  (ctc.find? (fun p => p.1 == k)).map (fun p => p.2)

/-- Dict lookup in `callee_state_cache`. -/
def lookupS (csc : CSC) (k : String) : Option (List String) :=
  (csc.find? (fun p => p.1 == k)).map (fun p => p.2)

/-- `_maybe_record_state_write`: if the lvalue resolves to a state
variable and the lvalue is tainted, record a finding deduped by
`(canonical_name, node id)`. -/
def recordStateWrite (env : Env) (lvalue : Var) (node : IRNode) (c : Ctx) : Ctx :=
  match resolveRef env lvalue with
  | .stateVar cname _ =>
    if c.isTainted lvalue then
      if (cname, node.nid) ∈ c.seenWrites then c
      else
        let pr := inferReason env c
        { pr.2 with seenWrites := (cname, node.nid) :: pr.2.seenWrites,
                    taintedStateWrites :=
                      pr.2.taintedStateWrites ++ [(cname, node.nid, pr.1)] }
    else c
  | _ => c

/-- One operation of `_propagate_caller_taint_through_callee`'s scan. -/
def callerTaintStep (env : Env) (st : List VarKey × Ctx) (ir : IROp) :
    List VarKey × Ctx :=
  if ir.isOpWithLV then
    match ir.lvalueOpt with
    | some lv =>
      let reads := ir.read.filter (fun v => !isConstantVar v)
      if reads.any (fun r => st.2.isTainted r || varKey r ∈ st.1) then
        (insertKey (varKey lv) st.1,
         match resolveRef env lv with
         | .stateVar cname _ => st.2.markStateName cname
         | _ => st.2)
      else st
    | none => st
  else st

/-- `_propagate_caller_taint_through_callee`: scan the callee body with a
local taint set seeded empty, marking state variables written from values
tainted in the caller's context. -/
def propagateCallerTaintThroughCallee (env : Env) (callee : Func) (c : Ctx) : Ctx :=
  (callee.nodes.foldl (fun st n => n.irs.foldl (callerTaintStep env) st)
    (([] : List VarKey), c)).2

/-- Set-style deduplication preserving first occurrence (the callee's
tainted state variables form a Python set). -/
def dedupStrs (l : List String) : List String :=
  l.foldl (fun acc x => if x ∈ acc then acc else acc ++ [x]) []

/-- `_callee_tainted_state_vars`: memoised summary of the state variables
a callee taints.  The cache entry is seeded with the empty set before the
callee is analysed, so cyclic re-entry returns the seeded summary. -/
def calleeTaintedStateVarsCore (A : AnalyzeFn) (env : Env) (f : Func)
    (ctc : CTC) (csc : CSC) : Option (List String × CTC × CSC) :=
  let key := f.canonicalName
  match lookupS csc key with
  | some v => some (v, ctc, csc)
  | none =>
    let csc := (key, ([] : List String)) :: csc
    if f.contractDeclarer.isNone then some ([], ctc, csc)
    else
      match A f ctc csc with
      | none => none
      | some (writes, ctc, csc) =>
        let result := dedupStrs (writes.map (fun w => w.1))
        some (result, ctc, (key, result) :: csc)

/-- `_handle_internal_call`. -/
def handleInternalCallCore (A : AnalyzeFn) (env : Env) (lvOpt : Option Var)
    (calleeName : Option String) (args : List Var) (c : Ctx) (ctc : CTC)
    (csc : CSC) : Option (Ctx × CTC × CSC) :=
  match calleeName.bind (lookupFunc env) with
  | none => some (c, ctc, csc)
  | some callee =>
    let anyArgTainted := args.any (fun a => !isConstantVar a && c.isTainted a)
    let ck := callee.canonicalName
    let ctc := if (lookupB ctc ck).isSome then ctc
               else (ck, calleeIntroducesTaint callee) :: ctc
    let calleeHasTaint := (lookupB ctc ck).getD false
    let c :=
      match lvOpt with
      | some lv => if anyArgTainted || calleeHasTaint then c.mark lv else c
      | none => c
    match calleeTaintedStateVarsCore A env callee ctc csc with
    | none => none
    | some (svs, ctc, csc) =>
      let c := svs.foldl Ctx.markStateName c
      some (propagateCallerTaintThroughCallee env callee c, ctc, csc)

/-- Sender-alias tracking step (`_process_node_data_flow`, first block). -/
def aliasTrackStep (c : Ctx) (ir : IROp) : Ctx :=
  match ir with
  | .assignment lv rv =>
    if isMsgSenderBuiltin rv then c.markMsgSenderAlias lv
    else if rv.oid ∈ c.msgSenderAliases then c.markMsgSenderAlias lv
    else c
  | _ => c

/-- Gas-global seeding step: mark every gas-global composed variable read
by the operation. -/
def gasSeedStep (c : Ctx) (ir : IROp) : Ctx :=
  ir.read.foldl (fun c r => if isGasComposed r then c.mark r else c) c

/-- Generic fallback of the data-flow dispatch: any operation with an
lvalue whose non-constant reads include a tainted variable taints the
lvalue. -/
def genericStep (c : Ctx) (ir : IROp) : Ctx :=
  if ir.isOpWithLV then
    match ir.lvalueOpt with
    | some lv => c.markIfAnyTainted (some lv) (ir.read.filter (fun v => !isConstantVar v))
    | none => c
  else c

/-- Mark an optional lvalue. -/
def markLvalue (c : Ctx) (lvOpt : Option Var) : Ctx :=
  match lvOpt with
  | some v => c.mark v
  | none => c

/-- The per-operation body of `_process_node_data_flow`'s main loop,
mirroring its `isinstance`/`continue` structure (operations that fail
their dedicated guard fall through to the generic fallback exactly where
the Python code does). -/
def processIRCore (A : AnalyzeFn) (env : Env) (node : IRNode) (ir : IROp)
    (c : Ctx) (ctc : CTC) (csc : CSC) : Option (Ctx × CTC × CSC) :=
  let c := aliasTrackStep c ir
  let c := gasSeedStep c ir
  match ir with
  | .solidityCall fname args lvOpt =>
    if fname == "gasleft()" && lvOpt.isSome then
      some (markLvalue c lvOpt, ctc, csc)
    else if fname == "balance(address)" && lvOpt.isSome &&
        (match args with | a :: _ => c.isMsgSender a | [] => false) then
      some (markLvalue c lvOpt, ctc, csc)
    else if fname ∈ hashAndEncode then
      some ((match lvOpt with
             | some lv => c.markIfAnyTainted (some lv) args
             | none => c), ctc, csc)
    else some (genericStep c ir, ctc, csc)
  | .newContract lvOpt salt _ =>
    if salt.isSome && lvOpt.isSome then some (markLvalue c lvOpt, ctc, csc)
    else some (genericStep c ir, ctc, csc)
  | .assignment lv rv =>
    if c.isTainted rv then
      let c := c.mark lv
      some (recordStateWrite env lv node c, ctc, csc)
    else some (c, ctc, csc)
  | .binary lv l r => some (c.markIfAnyTainted (some lv) [l, r], ctc, csc)
  | .unary lv rv => some ((if c.isTainted rv then c.mark lv else c), ctc, csc)
  | .typeConversion lv v =>
    let c := if c.isTainted v then c.mark lv else c
    let c := if c.isMsgSender v then c.markMsgSenderAlias lv else c
    some (c, ctc, csc)
  | .index lv l r =>
    some ((if c.isTainted r || c.isTainted l then c.mark lv else c), ctc, csc)
  | .unpack lv t =>
    some ((if c.isTainted t then c.mark lv else c), ctc, csc)
  | .internalCall lvOpt cname args =>
    handleInternalCallCore A env lvOpt cname args c ctc csc
  | .condition _ => some (c, ctc, csc)
  | .other _ _ => some (genericStep c ir, ctc, csc)

/-- The main IR loop of `_process_node_data_flow`. -/
def processIRs (A : AnalyzeFn) (env : Env) (node : IRNode) :
    List IROp → Ctx → CTC → CSC → Option (Ctx × CTC × CSC)
  | [], c, ctc, csc => some (c, ctc, csc)
  | ir :: rest, c, ctc, csc =>
    match processIRCore A env node ir c ctc csc with
    | none => none
    | some (c, ctc, csc) => processIRs A env node rest c ctc csc

/-- The post-pass of `_process_node_data_flow`: after processing all IRs,
rescan the node and record a finding for every operation whose lvalue
resolves to a tainted state variable. -/
def recordNodeStateWrites (env : Env) (node : IRNode) : List IROp → Ctx → Ctx
  | [], c => c
  | ir :: rest, c =>
    let c :=
      if ir.isOpWithLV then
        match ir.lvalueOpt with
        | some lv => recordStateWrite env lv node c
        | none => c
      else c
    recordNodeStateWrites env node rest c

/-- `_process_node_data_flow` for one node. -/
def processNodeDataFlowCore (A : AnalyzeFn) (env : Env) (node : IRNode)
    (c : Ctx) (ctc : CTC) (csc : CSC) : Option (Ctx × CTC × CSC) :=
  match processIRs A env node node.irs c ctc csc with
  | none => none
  | some (c, ctc, csc) => some (recordNodeStateWrites env node node.irs c, ctc, csc)

/-- Phase 1 of `_analyze_function`: process the nodes in order. -/
def analyzeNodes (A : AnalyzeFn) (env : Env) :
    List IRNode → Ctx → CTC → CSC → Option (Ctx × CTC × CSC)
  | [], c, ctc, csc => some (c, ctc, csc)
  | n :: rest, c, ctc, csc =>
    match processNodeDataFlowCore A env n c ctc csc with
    | none => none
    | some (c, ctc, csc) => analyzeNodes A env rest c ctc csc

/-- One IR operation of the per-`IF`-node scan of
`_propagate_control_flow_taint`: a `Condition` whose value is tainted sets
the flag; any operation with tainted non-constant reads has its lvalue
marked (but does not itself set the flag). -/
def cfScanStep (st : Ctx × Bool) (ir : IROp) : Ctx × Bool :=
  let condT := st.2 || (match ir with | .condition v => st.1.isTainted v | _ => false)
  let c :=
    if ir.isOpWithLV then
      match ir.lvalueOpt with
      | some lv =>
        if (ir.read.filter (fun v => !isConstantVar v)).any st.1.isTainted then st.1.mark lv
        else st.1
      | none => st.1
    else st.1
  (c, condT)

/-- Scan the IR operations of an `IF`/`IFLOOP` node, returning the updated
context and the `cond_tainted` flag. -/
def scanIfIRs (c : Ctx) (irs : List IROp) : Ctx × Bool :=
  irs.foldl cfScanStep (c, false)

/-- Total length of the `sons` lists of not-yet-visited nodes; the
worklist potential used to bound `_collect_branch_body`'s loop. -/
def sonsPotential (f : Func) (visited : List Nat) : Nat :=
  ((f.nodes.filter (fun n => !(visited.contains n.nid))).map
    (fun n => n.sons.length)).sum

/-- Find a CFG node of `f` by id (`sons` hold node ids in the embedding). -/
def lookupNode (f : Func) (i : Nat) : Option IRNode :=
  f.nodes.find? (fun n => n.nid == i)

/-- The worklist loop of `_collect_branch_body`.  The worklist is kept
reversed (head = Python's `list.pop()` end); each iteration strictly
decreases `sonsPotential f visited + worklist.length`, so the fuel
supplied by `collectBranchBody` is never exhausted
(`collectBodyAux_fuel_stable`). -/
def collectBodyAux (f : Func) : Nat → List Nat → List Nat → List IRNode → List IRNode
  | 0, _, _, result => result.reverse
  | _ + 1, [], _, result => result.reverse
  | fuel + 1, current :: rest, visited, result =>
    if current ∈ visited then collectBodyAux f fuel rest visited result
    else
      let visited := current :: visited
      match lookupNode f current with
      | none => collectBodyAux f fuel rest visited result
      | some nd =>
        if nd.typ == NodeTy.ENDIF then collectBodyAux f fuel rest visited result
        else
          let pushes := (nd.sons.filter (fun s => !(visited.contains s))).reverse
          collectBodyAux f fuel (pushes ++ rest) visited (nd :: result)

/-- `_collect_branch_body`: walk from the `IF` node's sons, halting
descent at `ENDIF` merge nodes (which are not added to the body). -/
def collectBranchBody (f : Func) (ifNode : IRNode) : List IRNode :=
  collectBodyAux f (sonsPotential f [ifNode.nid] + ifNode.sons.length + 1)
    ifNode.sons.reverse [ifNode.nid] []

/-- Record one `state_variables_written` entry of a branch-body node
(`_propagate_control_flow_taint`, recording loop). -/
def cfRecordSV (env : Env) (bn : IRNode) (c : Ctx) (svn : String) : Ctx :=
  if (svn, bn.nid) ∈ c.seenWrites then c
  else
    let pr := inferReason env c
    { pr.2 with seenWrites := (svn, bn.nid) :: pr.2.seenWrites,
                taintedStateWrites :=
                  pr.2.taintedStateWrites ++ [(svn, bn.nid, pr.1)] }

/-- Record all state writes of one branch-body node. -/
def cfRecordNode (env : Env) (c : Ctx) (bn : IRNode) : Ctx :=
  bn.stateVariablesWritten.foldl (cfRecordSV env bn) c

/-- Per-node step of `_propagate_control_flow_taint`. -/
def cfNodeStep (env : Env) (f : Func) (c : Ctx) (node : IRNode) : Ctx :=
  if node.typ == NodeTy.IF || node.typ == NodeTy.IFLOOP then
    let p := scanIfIRs c node.irs
    if p.2 then (collectBranchBody f node).foldl (cfRecordNode env) p.1
    else p.1
  else c

/-- Phase 2: `_propagate_control_flow_taint`. -/
def propagateControlFlowTaint (env : Env) (f : Func) (c : Ctx) : Ctx :=
  f.nodes.foldl (cfNodeStep env f) c

/-- Branch depth per node id, by the linear scan of
`_remove_overwritten_findings` (`ENDIF` pops with clamping at 0, which
Nat subtraction provides). -/
def branchDepths (f : Func) : List (Nat × Nat) :=
  (f.nodes.foldl
    (fun (st : List (Nat × Nat) × Nat) node =>
      let (bd, depth) := st
      if node.typ == NodeTy.IF || node.typ == NodeTy.IFLOOP then
        ((node.nid, depth) :: bd, depth + 1)
      else if node.typ == NodeTy.ENDIF then
        ((node.nid, depth - 1) :: bd, depth - 1)
      else ((node.nid, depth) :: bd, depth))
    ([], 0)).1

/-- Lookup in an id-to-Nat table. -/
def lookupNatNat (l : List (Nat × Nat)) (k : Nat) : Option Nat :=
  (l.find? (fun p => p.1 == k)).map (fun p => p.2)

/-- Node index per node id (`node_order`). -/
def nodeOrder (f : Func) : List (Nat × Int) :=
  (f.nodes.foldl
    (fun (st : List (Nat × Int) × Int) n => ((n.nid, st.2) :: st.1, st.2 + 1))
    ([], 0)).1

/-- Lookup in an id-to-Int table. -/
def lookupNatInt (l : List (Nat × Int)) (k : Nat) : Option Int :=
  (l.find? (fun p => p.1 == k)).map (fun p => p.2)

/-- Append a write entry to the per-variable write dict. -/
def addWrite (ws : List (String × List (Int × Bool))) (cname : String)
    (entry : Int × Bool) : List (String × List (Int × Bool)) :=
  match ws with
  | [] => [(cname, [entry])]
  | (k, l) :: t =>
    if k == cname then (k, l ++ [entry]) :: t
    else (k, l) :: addWrite t cname entry

/-- One IR operation of the depth-0 write collection: only `Assignment`s
whose lvalue is not itself a reference variable and resolves to a state
variable are recorded. -/
def depth0AssignStep (env : Env) (c : Ctx) (idx : Int)
    (ws : List (String × List (Int × Bool))) (ir : IROp) :
    List (String × List (Int × Bool)) :=
  match ir with
  | .assignment lv rv =>
    match lv with
    | .ref _ => ws
    | _ =>
      match resolveRef env lv with
      | .stateVar cname _ => addWrite ws cname (idx, c.isTainted rv)
      | _ => ws
  | _ => ws

/-- Collect the unconditional (branch-depth-0) state-variable assignments,
as `(node index, rvalue-is-tainted)` per canonical name. -/
def collectDepth0Writes (env : Env) (f : Func) (c : Ctx) :
    List (String × List (Int × Bool)) :=
  let bd := branchDepths f
  let order := nodeOrder f
  f.nodes.foldl
    (fun ws node =>
      if (lookupNatNat bd node.nid).getD 0 != 0 then ws
      else node.irs.foldl
        (depth0AssignStep env c ((lookupNatInt order node.nid).getD (-1))) ws)
    []

/-- Stable insertion into an index-sorted write list (Python `list.sort`
is stable; ties keep insertion order). -/
def insWrite (x : Int × Bool) : List (Int × Bool) → List (Int × Bool)
  | [] => [x]
  | y :: t => if x.1 < y.1 then x :: y :: t else y :: insWrite x t

/-- Stable sort of a write list by node index. -/
def sortWrites (l : List (Int × Bool)) : List (Int × Bool) :=
  l.foldl (fun acc x => insWrite x acc) []

/-- The `to_remove` set: variables whose last unconditional write is
clean. -/
def overwriteRemovals (env : Env) (f : Func) (c : Ctx) : List String :=
  (collectDepth0Writes env f c).foldl
    (fun acc p =>
      if p.2.isEmpty then acc
      else
        match (sortWrites p.2).getLast? with
        | some q => if q.2 then acc else insertStr p.1 acc
        | none => acc)
    []

/-- Phase 3: `_remove_overwritten_findings`. -/
def removeOverwrittenFindings (env : Env) (f : Func) (c : Ctx) : Ctx :=
  if c.taintedStateWrites.isEmpty then c
  else
    let toRemove := overwriteRemovals env f c
    if toRemove.isEmpty then c
    else
      let kept := c.taintedStateWrites.filter (fun w => !(toRemove.contains w.1))
      { c with taintedStateWrites := kept,
               seenWrites := kept.map (fun w => (w.1, w.2.1)) }

/-- `_analyze_function`, with fuel bounding the interprocedural recursion
depth.  Each recursive descent first seeds the callee-state cache with a
fresh key, so fuel exceeding the number of uncached environment functions
is never exhausted (theorem `analyzeFunction_total` / claim C5). -/
def analyzeFunction : Nat → Env → Func → CTC → CSC → Option (List Finding × CTC × CSC)
  | 0, _, _, _, _ => none
  | fuel + 1, env, f, ctc, csc =>
    match analyzeNodes (analyzeFunction fuel env) env f.nodes (initCtx f) ctc csc with
    | none => none
    | some (c, ctc, csc) =>
      let c := propagateControlFlowTaint env f c
      let c := removeOverwrittenFindings env f c
      some (c.taintedStateWrites, ctc, csc)

/-- Lowercase hex digit for a value below 16. -/
def toHexDigit (n : Nat) : Char :=
  if n = 0 then '0' else if n = 1 then '1' else if n = 2 then '2'
  else if n = 3 then '3' else if n = 4 then '4' else if n = 5 then '5'
  else if n = 6 then '6' else if n = 7 then '7' else if n = 8 then '8'
  else if n = 9 then '9' else if n = 10 then 'a' else if n = 11 then 'b'
  else if n = 12 then 'c' else if n = 13 then 'd' else if n = 14 then 'e'
  else 'f'

/-- Hex digits of `n` (most significant first), prepended to `acc`; the
fuel dominates the digit count whenever `n < 16 ^ fuel`. -/
def natToHexAux : Nat → Nat → List Char → List Char
  | 0, _, acc => acc
  | fuel + 1, n, acc =>
    if n = 0 then acc
    else natToHexAux fuel (n / 16) (toHexDigit (n % 16) :: acc)

/-- Lowercase hex rendering of a natural number, no leading zeros
(`"0"` for zero). -/
def natToHex (n : Nat) : List Char :=
  if n = 0 then ['0'] else natToHexAux (n + 1) n []

/-- Zero-pad on the left to width `w`. -/
def leftPadZeros (w : Nat) (ds : List Char) : List Char :=
  List.replicate (w - ds.length) '0' ++ ds

/-- Python `format(slot, "064x")`: sign-aware zero padding to total width
64 (for a negative value the minus sign occupies one column). -/
def pyHex064 (slot : Int) : List Char :=
  if slot < 0 then '-' :: leftPadZeros 63 (natToHex slot.natAbs)
  else leftPadZeros 64 (natToHex slot.toNat)

/-- The driver's `slot_hex` string: `f"0x{slot:064x}"`. -/
def slotHexStr (slot : Int) : String :=
  String.mk ('0' :: 'x' :: pyHex064 slot)

/-- Value of a single hex digit, as Python `int(..., 16)` accepts it. -/
def hexDigitVal (c : Char) : Option Nat :=
  if c = '0' then some 0 else if c = '1' then some 1 else if c = '2' then some 2
  else if c = '3' then some 3 else if c = '4' then some 4 else if c = '5' then some 5
  else if c = '6' then some 6 else if c = '7' then some 7 else if c = '8' then some 8
  else if c = '9' then some 9 else if c = 'a' then some 10 else if c = 'b' then some 11
  else if c = 'c' then some 12 else if c = 'd' then some 13 else if c = 'e' then some 14
  else if c = 'f' then some 15 else if c = 'A' then some 10 else if c = 'B' then some 11
  else if c = 'C' then some 12 else if c = 'D' then some 13 else if c = 'E' then some 14
  else if c = 'F' then some 15 else none

/-- Accumulating value of a hex digit string; fails on any non-digit. -/
def hexDigitsVal : List Char → Nat → Option Nat
  | [], acc => some acc
  | ch :: cs, acc =>
    match hexDigitVal ch with
    | some d => hexDigitsVal cs (16 * acc + d)
    | none => none

/-- Strip an optional leading sign, returning whether it was a minus. -/
def stripSign (cs : List Char) : Bool × List Char :=
  match cs with
  | [] => (false, [])
  | ch :: t =>
    if ch = '-' then (true, t)
    else if ch = '+' then (false, t)
    else (false, ch :: t)

/-- Strip an optional `0x` / `0X` prefix. -/
def strip0x (cs : List Char) : List Char :=
  match cs with
  | c0 :: c1 :: t => if c0 = '0' && (c1 = 'x' || c1 = 'X') then t else c0 :: c1 :: t
  | cs => cs

/-- Python `int(s, 16)` (as an `Option`; `none` models `ValueError`): an
optional sign, an optional `0x`/`0X` prefix, then a non-empty run of hex
digits. -/
def parseHexPy (s : String) : Option Int :=
  let p := stripSign s.data
  let cs := strip0x p.2
  if cs.isEmpty then none
  else
    match hexDigitsVal cs 0 with
    | some n => some (if p.1 then -(n : Int) else (n : Int))
    | none => none

/-- A contract as the driver consumes it. -/
structure ContractT where
  name : String
  functionsDeclared : List Func
  modifiersDeclared : List Func
  modifiers : List Func
deriving DecidableEq, Repr

/-- A compilation unit: derived contracts and the storage-layout oracle
(an absent entry models `storage_layout_of` raising). -/
structure CompilationUnit where
  contractsDerived : List ContractT
  storageLayout : List ((String × String) × (Int × Int))
deriving DecidableEq, Repr

/-- `_get_storage_slot`: `(-1, -1)` on a lookup failure. -/
def getStorageSlot (cu : CompilationUnit) (contractName cname : String) : Int × Int :=
  match cu.storageLayout.find? (fun p => p.1.1 == contractName && p.1.2 == cname) with
  | some p => p.2
  | none => (-1, -1)

/-- The structured payload of one emitted result
(`additional_fields["tainted_storage"]`). -/
structure TSResult where
  variableName : String
  contractName : String
  slot : Int
  slotHex : String
  offset : Int
  taintSource : String
  functionName : String
deriving DecidableEq, Repr

/-- Emit (or skip, when the `(variable, function)` key was already seen)
one returned write of the engine. -/
def detectWriteStep (cu : CompilationUnit) (contract : ContractT) (f : Func)
    (st : List TSResult × List (String × String)) (w : Finding) :
    List TSResult × List (String × String) :=
  let key := (w.1, f.canonicalName)
  if key ∈ st.2 then st
  else
    let so := getStorageSlot cu contract.name w.1
    let res : TSResult :=
      { variableName := w.1, contractName := contract.name, slot := so.1,
        slotHex := slotHexStr so.1, offset := so.2,
        taintSource := w.2.2, functionName := f.canonicalName }
    (st.1 ++ [res], key :: st.2)

/-- The driver's analysis list: declared functions, declared modifiers,
and inherited modifiers not already present. -/
def analyzableFuncs (contract : ContractT) : List Func :=
  contract.modifiers.foldl
    (fun acc m => if m ∈ acc then acc else acc ++ [m])
    (contract.functionsDeclared ++ contract.modifiersDeclared)

/-- Driver loop over one contract's analyzable functions. -/
def detectFuncs (env : Env) (cu : CompilationUnit) (contract : ContractT) :
    List Func → List TSResult × CTC × CSC × List (String × String) →
    Option (List TSResult × CTC × CSC × List (String × String))
  | [], st => some st
  | f :: rest, (results, ctc, csc, seen) =>
    if !f.isImplemented then detectFuncs env cu contract rest (results, ctc, csc, seen)
    else
      match analyzeFunction (env.funcs.length + 2) env f ctc csc with
      | none => none
      | some (writes, ctc, csc) =>
        let rs := writes.foldl (detectWriteStep cu contract f) (results, seen)
        detectFuncs env cu contract rest (rs.1, ctc, csc, rs.2)

/-- Driver loop over the derived contracts. -/
def detectContracts (env : Env) (cu : CompilationUnit) :
    List ContractT → List TSResult × CTC × CSC × List (String × String) →
    Option (List TSResult × CTC × CSC × List (String × String))
  | [], st => some st
  | contract :: rest, st =>
    match detectFuncs env cu contract (analyzableFuncs contract) st with
    | none => none
    | some st => detectContracts env cu rest st

/-- `TaintedStorage._detect`: run the engine over every implemented
function and modifier of every derived contract, dedupe results by
`(variable canonical_name, function canonical_name)` and attach
storage-slot metadata. -/
def detect (env : Env) (cu : CompilationUnit) : Option (List TSResult) :=
  match detectContracts env cu cu.contractsDerived ([], [], [], []) with
  | none => none
  | some st => some st.1

/-! ### Definitions modelled from the spec's words

These are not translations of the source; they state, in executable form,
what the corresponding spec/claim sentences say, so that the source-derived
definitions above can be compared against them. -/

/-- Modelled from the spec (claim C3 / §4.3): one scan step tracking
sender aliases (an assignment or cast from `msg.sender` or an existing
alias records the lvalue) and detecting a source: a `gasleft()` call, a
`balance(address)` call whose argument satisfies `is_msg_sender` (the
builtin or a recorded alias), a salted `NewContract`, or a gas-global
read. -/
def calleeHasSourceSpecStep (st : List Nat × Bool) (ir : IROp) : List Nat × Bool :=
  let (aliases, found) := st
  let aliases :=
    match ir with
    | .assignment lv rv =>
      if isMsgSenderBuiltin rv || rv.oid ∈ aliases then insertNat lv.oid aliases
      else aliases
    | .typeConversion lv v =>
      if isMsgSenderBuiltin v || v.oid ∈ aliases then insertNat lv.oid aliases
      else aliases
    | _ => aliases
  let isSender : Var → Bool := fun v =>
    match v with
    | .composed nm _ => nm == "msg.sender"
    | v => v.oid ∈ aliases
  let found := found ||
    (match ir with
     | .solidityCall fname args _ =>
       (fname == "gasleft()") ||
       ((fname == "balance(address)") &&
         (match args with | a :: _ => isSender a | [] => false))
     | .newContract _ salt _ => salt.isSome
     | _ => false) ||
    ir.read.any isGasComposed
  (aliases, found)

/-- Modelled from the spec (claim C3): "the callee's body contains a
source per §4.3", with `is_msg_sender` honouring recorded sender
aliases. -/
def calleeHasSourceSpec (f : Func) : Bool :=
  (f.nodes.foldl (fun st n => n.irs.foldl calleeHasSourceSpecStep st)
    (([] : List Nat), false)).2

/-- Modelled from the claim C4 wording: the node's condition counts as
tainted when any `Condition` op has a tainted value, and also when any op
in the node has tainted non-constant reads. -/
def condTaintedSpec (c : Ctx) (node : IRNode) : Bool :=
  node.irs.any (fun ir => match ir with | .condition v => c.isTainted v | _ => false) ||
  node.irs.any (fun ir => (ir.read.filter (fun v => !isConstantVar v)).any c.isTainted)

/-- Modelled from the spec (claim C9): the walk over the reference chain
that, on hitting a repeated node, returns "the last non-repeated node"
(the most recently visited new node); on an acyclic chain it returns the
first non-reference. -/
def lastNonRepeatedSpec (env : Env) : Nat → List Var → Var → Option Var
  | 0, _, _ => none
  | fuel + 1, visited, v =>
    match v with
    | .ref o =>
      if (visited.map Var.oid).contains o then visited.getLast?
      else
        match lookupOrigin env o with
        | none => some (.ref o)
        | some v' => lastNonRepeatedSpec env fuel (visited ++ [.ref o]) v'
    | v => some v

/-- Modelled from the claim C7 wording: `slot_hex` is exactly 66
characters, starts with `0x`, consists of `0x` followed by 64 lowercase
hex digits, and `int(slot_hex, 16) == slot`. -/
def claimSlotHexFormat (sh : String) (slot : Int) : Bool :=
  (sh.data.length == 66) &&
  (sh.data.take 2 == ['0', 'x']) &&
  ((sh.data.drop 2).length == 64) &&
  (sh.data.drop 2).all (fun ch => ch ∈ "0123456789abcdef".data) &&
  (parseHexPy sh == some slot)

/-! ### Concrete example inputs used by counterexamples and witnesses -/

/-- A callee whose only sender-balance evidence goes through a local
alias: `a = msg.sender; lv = a.balance`. -/
def gFuncC3 : Func :=
  { canonicalName := "C.g",
    nodes := [{ nid := 1, typ := .OTHER,
                irs := [.assignment (.loc 3) (.composed "msg.sender" 2),
                        .solidityCall "balance(address)" [.loc 3] (some (.loc 4))],
                sons := [], stateVariablesWritten := [] }],
    contractDeclarer := some "C", isImplemented := true }

/-- Environment containing only `gFuncC3`. -/
def envC3 : Env := { funcs := [gFuncC3], refEnv := [] }

/-- An internal call to `C.g`. -/
def callIrC3 : IROp := .internalCall (some (.loc 9)) (some "C.g") []

/-- The caller node holding `callIrC3`. -/
def nodeC3 : IRNode :=
  { nid := 7, typ := .OTHER, irs := [callIrC3], sons := [],
    stateVariablesWritten := [] }

/-- The caller function. -/
def fFuncC3 : Func :=
  { canonicalName := "C.f", nodes := [nodeC3], contractDeclarer := some "C",
    isImplemented := true }

/-- An `IF` node with no `Condition` op but one op with a tainted
non-constant read. -/
def nodeC4 : IRNode :=
  { nid := 5, typ := .IF, irs := [.assignment (.loc 7) (.loc 100)],
    sons := [], stateVariablesWritten := [] }

/-- Host function for `nodeC4`. -/
def fFuncC4 : Func :=
  { canonicalName := "C.h", nodes := [nodeC4], contractDeclarer := some "C",
    isImplemented := true }

/-- A context in which the local with object id 100 is tainted. -/
def ctxC4 : Ctx := { initCtx fFuncC4 with tainted := [VarKey.obj 100] }

/-- A two-element cyclic reference chain: ref 0 → ref 1 → ref 0. -/
def envC9 : Env := { funcs := [], refEnv := [(0, .ref 1), (1, .ref 0)] }

/-- `function save() { gasSnapshot = gasleft(); }`. -/
def fGas : Func :=
  { canonicalName := "C.save",
    nodes := [{ nid := 1, typ := .OTHER,
                irs := [.solidityCall "gasleft()" [] (some (.loc 100)),
                        .assignment (.stateVar "C.gasSnapshot" 50) (.loc 100)],
                sons := [], stateVariablesWritten := ["C.gasSnapshot"] }],
    contractDeclarer := some "C", isImplemented := true }

/-- Environment containing only `fGas`. -/
def envGas : Env := { funcs := [fGas], refEnv := [] }

/-- A compilation unit whose storage layout has no entries, so every
lookup fails and `slot = -1` is reported. -/
def cuGasNoLayout : CompilationUnit :=
  { contractsDerived := [{ name := "C", functionsDeclared := [fGas],
                           modifiersDeclared := [], modifiers := [] }],
    storageLayout := [] }

/-- The same compilation unit with a storage-layout entry for
`C.gasSnapshot`. -/
def cuGasLayout : CompilationUnit :=
  { contractsDerived := [{ name := "C", functionsDeclared := [fGas],
                           modifiersDeclared := [], modifiers := [] }],
    storageLayout := [(("C", "C.gasSnapshot"), (0, 0))] }

/-- Claim C3, counterexample: the callee `C.g` contains a §4.3 source
(a `balance(address)` call whose argument is a recorded sender alias),
yet `_callee_introduces_taint` does not recognise it and the cache entry
computed at an internal call to `C.g` is `false`. -/
theorem C3_counterexample :
    calleeHasSourceSpec gFuncC3 = true ∧
    calleeIntroducesTaint gFuncC3 = false ∧
    (processIRCore (analyzeFunction (envC3.funcs.length + 1) envC3) envC3 nodeC3
        callIrC3 (initCtx fFuncC3) [] []).map (fun out => lookupB out.2.1 "C.g") =
      some (some false) := by
  refine ⟨by decide, by decide, by decide⟩

/-- Claim C4, counterexample: `nodeC4` contains an op with a tainted
non-constant read (so the claim says its condition is determined tainted),
but the propagator's scan leaves `cond_tainted` false. -/
theorem C4_counterexample :
    condTaintedSpec ctxC4 nodeC4 = true ∧ (scanIfIRs ctxC4 nodeC4.irs).2 = false := by
  refine ⟨by decide, by decide⟩

/-- Claim C9, counterexample: on the cyclic chain ref 0 → ref 1 → ref 0
the resolver returns `ref 0` (the node at which the cycle guard fires),
while the "last non-repeated node" of the walk is `ref 1`. -/
theorem C9_counterexample :
    resolveRef envC9 (.ref 0) = .ref 0 ∧
    lastNonRepeatedSpec envC9 4 [] (.ref 0) = some (.ref 1) ∧
    Var.ref 0 ≠ Var.ref 1 := by
  refine ⟨by decide, by decide, by decide⟩

/-- Claim C7, counterexample: with a failing storage-layout lookup the
emitted finding has `slot = -1` and its `slot_hex` is `0x` followed by a
minus sign, so it does not consist of 64 lowercase hex digits and
`int(slot_hex, 16)` does not yield the slot. -/
theorem C7_counterexample :
    ((detect envGas cuGasNoLayout).getD []).length = 1 ∧
    ((detect envGas cuGasNoLayout).getD []).all (fun r => r.slot == -1) = true ∧
    ((detect envGas cuGasNoLayout).getD []).all
      (fun r => claimSlotHexFormat r.slotHex r.slot) = false := by
  refine ⟨by decide, by decide, by decide⟩

/-! ### Generic fold and insertion lemmas -/

theorem foldl_pres {α β : Type _} (P : β → Prop) (step : β → α → β)
    (h : ∀ b a, P b → P (step b a)) :
    ∀ (l : List α) (b : β), P b → P (l.foldl step b) := by
  intro l
  induction l with
  | nil => intro b hb; simpa using hb
  | cons a t ih => intro b hb; simpa using ih (step b a) (h b a hb)

theorem foldl_rel {α β : Type _} (R : β → β → Prop) (step : β → α → β)
    (hrefl : ∀ b, R b b)
    (htrans : ∀ x y z, R x y → R y z → R x z)
    (hstep : ∀ b a, R b (step b a)) :
    ∀ (l : List α) (b : β), R b (l.foldl step b) := by
  intro l
  induction l with
  | nil => intro b; simpa using hrefl b
  | cons a t ih =>
    intro b
    exact htrans _ _ _ (hstep b a) (by simpa using ih (step b a))

theorem mem_insertKey_self (k : VarKey) (l : List VarKey) : k ∈ insertKey k l := by
  unfold insertKey; split <;> simp_all

theorem mem_insertKey_of_mem {k' : VarKey} (k : VarKey) {l : List VarKey}
    (h : k' ∈ l) : k' ∈ insertKey k l := by
  unfold insertKey; split <;> simp_all

theorem mem_insertStr_self (s : String) (l : List String) : s ∈ insertStr s l := by
  unfold insertStr; split <;> simp_all

theorem mem_insertStr_of_mem {s' : String} (s : String) {l : List String}
    (h : s' ∈ l) : s' ∈ insertStr s l := by
  unfold insertStr; split <;> simp_all

/-! ### Context growth predicates and step lemmas -/

/-- Taint-set monotonicity between contexts. -/
def TaintMono (c c' : Ctx) : Prop := ∀ k, k ∈ c.tainted → k ∈ c'.tainted

/-- A pure marking step: the taint (and possibly alias) sets may grow
while every other field is unchanged. -/
def PM (c c' : Ctx) : Prop :=
  TaintMono c c' ∧ c'.function = c.function ∧
  c'.taintedStateWrites = c.taintedStateWrites ∧
  c'.seenWrites = c.seenWrites ∧ c'.cachedReason = c.cachedReason

/-- General growth: taint, findings and the dedup index only grow. -/
def CtxLe (c c' : Ctx) : Prop :=
  TaintMono c c' ∧ (∀ w ∈ c.taintedStateWrites, w ∈ c'.taintedStateWrites) ∧
  (∀ p ∈ c.seenWrites, p ∈ c'.seenWrites)

/-- The dedup index `seen_writes` only holds keys of recorded findings. -/
def SeenInv (c : Ctx) : Prop :=
  ∀ p ∈ c.seenWrites, ∃ r, (p.1, p.2, r) ∈ c.taintedStateWrites

theorem PM_rfl (c : Ctx) : PM c c := ⟨fun _ h => h, rfl, rfl, rfl, rfl⟩

theorem PM_trans {a b c : Ctx} (h1 : PM a b) (h2 : PM b c) : PM a c := by
  obtain ⟨m1, f1, w1, s1, r1⟩ := h1
  obtain ⟨m2, f2, w2, s2, r2⟩ := h2
  exact ⟨fun k hk => m2 k (m1 k hk), f2.trans f1, w2.trans w1, s2.trans s1, r2.trans r1⟩

theorem PM_ctxLe {c c' : Ctx} (h : PM c c') : CtxLe c c' := by
  obtain ⟨m, _, w, s, _⟩ := h
  exact ⟨m, fun x hx => w ▸ hx, fun x hx => s ▸ hx⟩

theorem PM_seenInv {c c' : Ctx} (h : PM c c') (hi : SeenInv c) : SeenInv c' := by
  obtain ⟨_, _, w, s, _⟩ := h
  intro p hp
  rw [s] at hp
  obtain ⟨r, hr⟩ := hi p hp
  exact ⟨r, by rw [w]; exact hr⟩

theorem ctxLe_rfl (c : Ctx) : CtxLe c c := ⟨fun _ h => h, fun _ h => h, fun _ h => h⟩

theorem ctxLe_trans {a b c : Ctx} (h1 : CtxLe a b) (h2 : CtxLe b c) : CtxLe a c := by
  obtain ⟨m1, w1, s1⟩ := h1
  obtain ⟨m2, w2, s2⟩ := h2
  exact ⟨fun k hk => m2 k (m1 k hk), fun x hx => w2 x (w1 x hx), fun x hx => s2 x (s1 x hx)⟩

theorem PM_mark (c : Ctx) (v : Var) : PM c (c.mark v) :=
  ⟨fun _ hk => mem_insertKey_of_mem _ hk, rfl, rfl, rfl, rfl⟩

theorem PM_markStateName (c : Ctx) (n : String) : PM c (c.markStateName n) :=
  ⟨fun _ hk => mem_insertKey_of_mem _ hk, rfl, rfl, rfl, rfl⟩

theorem PM_markMsgSenderAlias (c : Ctx) (v : Var) : PM c (c.markMsgSenderAlias v) :=
  ⟨fun _ h => h, rfl, rfl, rfl, rfl⟩

theorem PM_markIfAnyTainted (c : Ctx) (lv : Option Var) (reads : List Var) :
    PM c (c.markIfAnyTainted lv reads) := by
  unfold Ctx.markIfAnyTainted
  split
  · match lv with
    | some v => exact PM_mark c v
    | none => exact PM_rfl c
  · exact PM_rfl c

theorem PM_markLvalue (c : Ctx) (lvOpt : Option Var) : PM c (markLvalue c lvOpt) := by
  unfold markLvalue
  match lvOpt with
  | some v => exact PM_mark c v
  | none => exact PM_rfl c

theorem PM_gasSeedStep (c : Ctx) (ir : IROp) : PM c (gasSeedStep c ir) := by
  unfold gasSeedStep
  refine foldl_rel PM _ PM_rfl (fun _ _ _ => PM_trans) (fun b a => ?_) ir.read c
  split
  · exact PM_mark b a
  · exact PM_rfl b

theorem PM_aliasTrackStep (c : Ctx) (ir : IROp) : PM c (aliasTrackStep c ir) := by
  unfold aliasTrackStep
  match ir with
  | .assignment lv rv =>
    by_cases h1 : isMsgSenderBuiltin rv = true
    · simp only [h1, if_true]; exact PM_markMsgSenderAlias c lv
    · simp only [h1]
      split
      · exact PM_markMsgSenderAlias c lv
      · split
        · exact PM_markMsgSenderAlias c lv
        · exact PM_rfl c
  | .binary _ _ _ => exact PM_rfl c
  | .unary _ _ => exact PM_rfl c
  | .typeConversion _ _ => exact PM_rfl c
  | .index _ _ _ => exact PM_rfl c
  | .unpack _ _ => exact PM_rfl c
  | .solidityCall _ _ _ => exact PM_rfl c
  | .newContract _ _ _ => exact PM_rfl c
  | .internalCall _ _ _ => exact PM_rfl c
  | .condition _ => exact PM_rfl c
  | .other _ _ => exact PM_rfl c

theorem PM_genericStep (c : Ctx) (ir : IROp) : PM c (genericStep c ir) := by
  unfold genericStep
  split
  · match h : ir.lvalueOpt with
    | some lv => exact PM_markIfAnyTainted c (some lv) _
    | none => exact PM_rfl c
  · exact PM_rfl c

theorem PM_callerTaintStep (env : Env) (st : List VarKey × Ctx) (ir : IROp) :
    PM st.2 (callerTaintStep env st ir).2 := by
  unfold callerTaintStep
  split
  · split
    · dsimp only
      split
      · split
        · exact PM_markStateName st.2 _
        · exact PM_rfl st.2
      · exact PM_rfl st.2
    · exact PM_rfl st.2
  · exact PM_rfl st.2

theorem PM_propagateCallerTaint (env : Env) (g : Func) (c : Ctx) :
    PM c (propagateCallerTaintThroughCallee env g c) := by
  unfold propagateCallerTaintThroughCallee
  have h := foldl_rel (fun (x y : List VarKey × Ctx) => PM x.2 y.2)
    (fun st n => n.irs.foldl (callerTaintStep env) st)
    (fun b => PM_rfl b.2) (fun _ _ _ => PM_trans)
    (fun b n => foldl_rel (fun (x y : List VarKey × Ctx) => PM x.2 y.2)
      (callerTaintStep env) (fun b => PM_rfl b.2) (fun _ _ _ => PM_trans)
      (fun b a => PM_callerTaintStep env b a) n.irs b)
    g.nodes (([] : List VarKey), c)
  exact h

/-- All context fields other than `cached_reason` are unchanged by
`_infer_reason`. -/
theorem inferReason_fields (env : Env) (c : Ctx) :
    (inferReason env c).2.function = c.function ∧
    (inferReason env c).2.tainted = c.tainted ∧
    (inferReason env c).2.msgSenderAliases = c.msgSenderAliases ∧
    (inferReason env c).2.taintedStateWrites = c.taintedStateWrites ∧
    (inferReason env c).2.seenWrites = c.seenWrites := by
  unfold inferReason
  split <;> simp

/-- A state variable is its own reference-chain origin. -/
theorem resolveRef_stateVar (env : Env) (s : String) (o : Nat) :
    resolveRef env (Var.stateVar s o) = Var.stateVar s o := rfl

theorem recordStateWrite_tainted (env : Env) (lv : Var) (node : IRNode) (c : Ctx) :
    (recordStateWrite env lv node c).tainted = c.tainted ∧
    (recordStateWrite env lv node c).function = c.function := by
  unfold recordStateWrite
  split
  · split
    · split
      · exact ⟨rfl, rfl⟩
      · exact ⟨(inferReason_fields env c).2.1, (inferReason_fields env c).1⟩
    · exact ⟨rfl, rfl⟩
  · exact ⟨rfl, rfl⟩

theorem recordStateWrite_le (env : Env) (lv : Var) (node : IRNode) (c : Ctx) :
    CtxLe c (recordStateWrite env lv node c) := by
  unfold recordStateWrite
  split
  · split
    · split
      · exact ctxLe_rfl c
      · obtain ⟨_, ht, _, hw, hs⟩ := inferReason_fields env c
        refine ⟨fun k hk => by simpa [ht] using hk, fun w hw2 => ?_, fun p hp => ?_⟩
        · simp only [hw]; exact List.mem_append_left _ hw2
        · simp only [hs]; exact List.mem_cons_of_mem _ hp
    · exact ctxLe_rfl c
  · exact ctxLe_rfl c

theorem recordStateWrite_seenInv (env : Env) (lv : Var) (node : IRNode) (c : Ctx)
    (h : SeenInv c) : SeenInv (recordStateWrite env lv node c) := by
  unfold recordStateWrite
  split
  · split
    · split
      · exact h
      · obtain ⟨_, _, _, hw, hs⟩ := inferReason_fields env c
        intro p hp
        simp only [hs] at hp
        simp only [hw]
        rcases List.mem_cons.mp hp with h1 | h1
        · subst h1
          exact ⟨(inferReason env c).1, List.mem_append_right _ (by simp)⟩
        · obtain ⟨r, hr⟩ := h p h1
          exact ⟨r, List.mem_append_left _ hr⟩
    · exact h
  · exact h

theorem recordStateWrite_ensures (env : Env) (lv : Var) (node : IRNode) (c : Ctx)
    (cname : String) (o : Nat)
    (hres : resolveRef env lv = Var.stateVar cname o)
    (ht : c.isTainted lv = true) :
    (cname, node.nid) ∈ (recordStateWrite env lv node c).seenWrites := by
  unfold recordStateWrite
  rw [hres]
  simp only [ht, if_true]
  split
  · assumption
  · simp [(inferReason_fields env c).2.2.2.2]

/-- One step of the post-pass. -/
def postPassStep (env : Env) (node : IRNode) (c : Ctx) (ir : IROp) : Ctx :=
  if ir.isOpWithLV then
    match ir.lvalueOpt with
    | some lv => recordStateWrite env lv node c
    | none => c
  else c

theorem recordNodeStateWrites_eq_fold (env : Env) (node : IRNode) :
    ∀ (irs : List IROp) (c : Ctx),
      recordNodeStateWrites env node irs c = irs.foldl (postPassStep env node) c := by
  intro irs
  induction irs with
  | nil => intro c; rfl
  | cons a t ih =>
    intro c
    simp only [recordNodeStateWrites, List.foldl_cons, postPassStep]
    split
    · exact ih _
    · exact ih _

theorem postPassStep_tainted (env : Env) (node : IRNode) (c : Ctx) (ir : IROp) :
    (postPassStep env node c ir).tainted = c.tainted := by
  unfold postPassStep
  split
  · split
    · exact (recordStateWrite_tainted env _ node c).1
    · rfl
  · rfl

theorem postPassStep_le (env : Env) (node : IRNode) (c : Ctx) (ir : IROp) :
    CtxLe c (postPassStep env node c ir) := by
  unfold postPassStep
  split
  · split
    · exact recordStateWrite_le env _ node c
    · exact ctxLe_rfl c
  · exact ctxLe_rfl c

theorem postPassStep_seenInv (env : Env) (node : IRNode) (c : Ctx) (ir : IROp)
    (h : SeenInv c) : SeenInv (postPassStep env node c ir) := by
  unfold postPassStep
  split
  · split
    · exact recordStateWrite_seenInv env _ node c h
    · exact h
  · exact h

theorem postPass_le (env : Env) (node : IRNode) (irs : List IROp) (c : Ctx) :
    CtxLe c (irs.foldl (postPassStep env node) c) :=
  foldl_rel CtxLe _ ctxLe_rfl (fun _ _ _ => ctxLe_trans) (postPassStep_le env node) irs c

theorem postPass_seenInv (env : Env) (node : IRNode) (irs : List IROp) (c : Ctx)
    (h : SeenInv c) : SeenInv (irs.foldl (postPassStep env node) c) :=
  foldl_pres SeenInv _ (postPassStep_seenInv env node) irs c h

/-- C10 (claim): a direct write to an already-tainted state variable is
recorded by the per-node post-pass even when every read of the operation
is clean; only the overwrite eliminator may later remove it. -/
theorem C10_post_pass_records_direct_write
    (env : Env) (node : IRNode) (c : Ctx) (cname : String) (o : Nat) (ir : IROp)
    (hinv : SeenInv c)
    (ht : VarKey.state cname ∈ c.tainted)
    (hir : ir ∈ node.irs)
    (hlv : ir.lvalueOpt = some (Var.stateVar cname o))
    (hwlv : ir.isOpWithLV = true)
    (hclean : ∀ rd ∈ ir.read, c.isTainted rd = false) :
    ∃ r, (cname, node.nid, r) ∈
      (recordNodeStateWrites env node node.irs c).taintedStateWrites := by
  rw [recordNodeStateWrites_eq_fold]
  obtain ⟨l1, l2, hsplit⟩ := List.append_of_mem hir
  rw [hsplit, List.foldl_append, List.foldl_cons]
  set c1 := l1.foldl (postPassStep env node) c with hc1
  have hinv1 : SeenInv c1 := postPass_seenInv env node l1 c hinv
  have htaint1 : c1.tainted = c.tainted := by
    rw [hc1]
    exact foldl_pres (fun x => x.tainted = c.tainted)
      (postPassStep env node)
      (fun b a hb => (postPassStep_tainted env node b a).trans hb) l1 c rfl
  have hstep : (cname, node.nid) ∈ (postPassStep env node c1 ir).seenWrites := by
    unfold postPassStep
    rw [hwlv, hlv]
    simp only [if_true]
    refine recordStateWrite_ensures env _ node c1 cname o (resolveRef_stateVar env cname o) ?_
    simp only [Ctx.isTainted, varKey, htaint1]
    exact decide_eq_true ht
  have hrest := postPass_le env node l2 (postPassStep env node c1 ir)
  have hseen := hrest.2.2 _ hstep
  have hinv2 : SeenInv (l2.foldl (postPassStep env node) (postPassStep env node c1 ir)) :=
    postPass_seenInv env node l2 _ (postPassStep_seenInv env node c1 ir hinv1)
  exact hinv2 _ hseen

/-- Concrete inputs for the C10 witness: a node assigning the constant 9
to the already-tainted state variable `C.t`. -/
def nodeC10 : IRNode :=
  { nid := 3, typ := .OTHER,
    irs := [.assignment (.stateVar "C.t" 8) (.constant 9)],
    sons := [], stateVariablesWritten := ["C.t"] }

/-- Host function for `nodeC10`. -/
def fFuncC10 : Func :=
  { canonicalName := "C.w", nodes := [nodeC10], contractDeclarer := some "C",
    isImplemented := true }

/-- Context in which `C.t` is already tainted. -/
def ctxC10 : Ctx := { initCtx fFuncC10 with tainted := [VarKey.state "C.t"] }

/-- Witness for C10 at a concrete input. -/
theorem C10_witness :
    ∃ r, ("C.t", 3, r) ∈
      (recordNodeStateWrites envGas nodeC10 nodeC10.irs ctxC10).taintedStateWrites := by
  refine C10_post_pass_records_direct_write envGas nodeC10 ctxC10 "C.t" 8
    (.assignment (.stateVar "C.t" 8) (.constant 9)) ?_ (by decide) (by decide)
    (by decide) (by decide) (by decide)
  intro p hp
  simp [ctxC10, initCtx] at hp

/-! ### Control-flow phase lemmas -/

/-- The flag contribution of one scanned operation: only a `Condition`
whose value is tainted. -/
def cfCondCheck (c : Ctx) (ir : IROp) : Bool :=
  match ir with
  | .condition v => c.isTainted v
  | _ => false

/-- The context contribution of one scanned operation: mark the lvalue of
any operation with tainted non-constant reads. -/
def cfMarkStep (c : Ctx) (ir : IROp) : Ctx :=
  if ir.isOpWithLV then
    match ir.lvalueOpt with
    | some lv =>
      if (ir.read.filter (fun v => !isConstantVar v)).any c.isTainted then c.mark lv
      else c
    | none => c
  else c

theorem cfScanStep_eq (st : Ctx × Bool) (ir : IROp) :
    cfScanStep st ir = (cfMarkStep st.1 ir, st.2 || cfCondCheck st.1 ir) := rfl

theorem PM_cfMarkStep (c : Ctx) (ir : IROp) : PM c (cfMarkStep c ir) := by
  unfold cfMarkStep
  split
  · split
    · split
      · exact PM_mark c _
      · exact PM_rfl c
    · exact PM_rfl c
  · exact PM_rfl c

theorem PM_cfMarkFold (irs : List IROp) (c : Ctx) : PM c (irs.foldl cfMarkStep c) :=
  foldl_rel PM cfMarkStep PM_rfl (fun _ _ _ => PM_trans) PM_cfMarkStep irs c

theorem scanFold_ctx (irs : List IROp) : ∀ (c : Ctx) (b : Bool),
    (irs.foldl cfScanStep (c, b)).1 = irs.foldl cfMarkStep c := by
  induction irs with
  | nil => intro c b; rfl
  | cons ir rest ih =>
    intro c b
    rw [List.foldl_cons, List.foldl_cons, cfScanStep_eq]
    exact ih _ _

theorem cfCondCheck_iff (c : Ctx) (ir : IROp) :
    cfCondCheck c ir = true ↔ ∃ v, ir = IROp.condition v ∧ c.isTainted v = true := by
  cases ir <;> simp [cfCondCheck]

theorem scanFold_flag (irs : List IROp) : ∀ (c : Ctx) (b : Bool),
    (irs.foldl cfScanStep (c, b)).2 = true ↔
      b = true ∨ ∃ l1 v l2, irs = l1 ++ IROp.condition v :: l2 ∧
        (l1.foldl cfMarkStep c).isTainted v = true := by
  induction irs with
  | nil =>
    intro c b
    constructor
    · intro h; exact Or.inl h
    · rintro (h | ⟨l1, v, l2, hs, _⟩)
      · exact h
      · exact absurd hs (by simp)
  | cons ir rest ih =>
    intro c b
    rw [List.foldl_cons, cfScanStep_eq, ih]
    constructor
    · rintro (h | ⟨l1, v, l2, hs, htv⟩)
      · rcases Bool.or_eq_true_iff.mp h with h1 | h1
        · exact Or.inl h1
        · obtain ⟨v, hv, htv⟩ := (cfCondCheck_iff c ir).mp h1
          exact Or.inr ⟨[], v, rest, by rw [hv]; rfl, by simpa using htv⟩
      · exact Or.inr ⟨ir :: l1, v, l2, by rw [List.cons_append, hs],
          by rwa [List.foldl_cons]⟩
    · rintro (h | ⟨l1, v, l2, hs, htv⟩)
      · exact Or.inl (by simp [h])
      · cases l1 with
        | nil =>
          simp only [List.nil_append, List.cons.injEq] at hs
          refine Or.inl ?_
          have : cfCondCheck c ir = true :=
            (cfCondCheck_iff c ir).mpr ⟨v, hs.1, by simpa using htv⟩
          simp [this]
        | cons a l1' =>
          simp only [List.cons_append, List.cons.injEq] at hs
          obtain ⟨ha, hrest⟩ := hs
          subst ha
          exact Or.inr ⟨l1', v, l2, hrest, by rwa [List.foldl_cons] at htv⟩

theorem isTainted_of_mono {c c' : Ctx} (h : TaintMono c c') {v : Var}
    (ht : c.isTainted v = true) : c'.isTainted v = true := by
  simp only [Ctx.isTainted, decide_eq_true_eq] at ht ⊢
  exact h _ ht

/-- C4 (amended): the control-flow propagator determines an `IF`/`IFLOOP`
node's condition to be tainted exactly when some `Condition` op's value is
tainted at its scan position (after the lvalue-marking of the earlier ops
of the same node); operations with tainted non-constant reads have their
lvalues marked but do not themselves set the flag. -/
theorem C4_amended_cond_flag (c : Ctx) (node : IRNode) :
    (scanIfIRs c node.irs).2 = true ↔
      ∃ l1 v l2, node.irs = l1 ++ IROp.condition v :: l2 ∧
        (l1.foldl cfMarkStep c).isTainted v = true := by
  unfold scanIfIRs
  rw [scanFold_flag]
  simp

theorem cfRecordSV_le (env : Env) (bn : IRNode) (c : Ctx) (svn : String) :
    CtxLe c (cfRecordSV env bn c svn) := by
  unfold cfRecordSV
  split
  · exact ctxLe_rfl c
  · obtain ⟨_, ht, _, hw, hs⟩ := inferReason_fields env c
    refine ⟨fun k hk => by simpa [ht] using hk, fun w hw2 => ?_, fun p hp => ?_⟩
    · simp only [hw]; exact List.mem_append_left _ hw2
    · simp only [hs]; exact List.mem_cons_of_mem _ hp

theorem cfRecordSV_seenInv (env : Env) (bn : IRNode) (c : Ctx) (svn : String)
    (h : SeenInv c) : SeenInv (cfRecordSV env bn c svn) := by
  unfold cfRecordSV
  split
  · exact h
  · obtain ⟨_, _, _, hw, hs⟩ := inferReason_fields env c
    intro p hp
    simp only [hs] at hp
    simp only [hw]
    rcases List.mem_cons.mp hp with h1 | h1
    · subst h1
      exact ⟨(inferReason env c).1, List.mem_append_right _ (by simp)⟩
    · obtain ⟨r, hr⟩ := h p h1
      exact ⟨r, List.mem_append_left _ hr⟩

theorem cfRecordSV_ensures (env : Env) (bn : IRNode) (c : Ctx) (svn : String) :
    (svn, bn.nid) ∈ (cfRecordSV env bn c svn).seenWrites := by
  unfold cfRecordSV
  split
  · assumption
  · simp [(inferReason_fields env c).2.2.2.2]

theorem cfRecordNode_le (env : Env) (c : Ctx) (bn : IRNode) :
    CtxLe c (cfRecordNode env c bn) :=
  foldl_rel CtxLe (cfRecordSV env bn) ctxLe_rfl (fun _ _ _ => ctxLe_trans)
    (cfRecordSV_le env bn) bn.stateVariablesWritten c

theorem cfRecordNode_seenInv (env : Env) (c : Ctx) (bn : IRNode)
    (h : SeenInv c) : SeenInv (cfRecordNode env c bn) :=
  foldl_pres SeenInv (cfRecordSV env bn) (cfRecordSV_seenInv env bn)
    bn.stateVariablesWritten c h

theorem cfRecordNode_ensures (env : Env) (c : Ctx) (bn : IRNode) (svn : String)
    (h : svn ∈ bn.stateVariablesWritten) :
    (svn, bn.nid) ∈ (cfRecordNode env c bn).seenWrites := by
  unfold cfRecordNode
  obtain ⟨l1, l2, hs⟩ := List.append_of_mem h
  rw [hs, List.foldl_append, List.foldl_cons]
  have h1 := cfRecordSV_ensures env bn (l1.foldl (cfRecordSV env bn) c) svn
  have h2 := foldl_rel CtxLe (cfRecordSV env bn) ctxLe_rfl (fun _ _ _ => ctxLe_trans)
    (cfRecordSV_le env bn) l2 (cfRecordSV env bn (l1.foldl (cfRecordSV env bn) c) svn)
  exact h2.2.2 _ h1

theorem cfBody_le (env : Env) (body : List IRNode) (c : Ctx) :
    CtxLe c (body.foldl (cfRecordNode env) c) :=
  foldl_rel CtxLe (cfRecordNode env) ctxLe_rfl (fun _ _ _ => ctxLe_trans)
    (cfRecordNode_le env) body c

theorem cfBody_seenInv (env : Env) (body : List IRNode) (c : Ctx)
    (h : SeenInv c) : SeenInv (body.foldl (cfRecordNode env) c) :=
  foldl_pres SeenInv (cfRecordNode env) (cfRecordNode_seenInv env) body c h

theorem cfBody_ensures (env : Env) (body : List IRNode) (c : Ctx) (bn : IRNode)
    (hbn : bn ∈ body) (svn : String) (hsv : svn ∈ bn.stateVariablesWritten) :
    (svn, bn.nid) ∈ (body.foldl (cfRecordNode env) c).seenWrites := by
  obtain ⟨l1, l2, hs⟩ := List.append_of_mem hbn
  rw [hs, List.foldl_append, List.foldl_cons]
  have h1 := cfRecordNode_ensures env (l1.foldl (cfRecordNode env) c) bn svn hsv
  exact (cfBody_le env l2 _).2.2 _ h1

theorem PM_scanIf_ctx (c : Ctx) (irs : List IROp) : PM c (scanIfIRs c irs).1 := by
  unfold scanIfIRs
  rw [scanFold_ctx]
  exact PM_cfMarkFold irs c

theorem cfNodeStep_le (env : Env) (f : Func) (c : Ctx) (node : IRNode) :
    CtxLe c (cfNodeStep env f c node) := by
  unfold cfNodeStep
  dsimp only
  split
  · split
    · exact ctxLe_trans (PM_ctxLe (PM_scanIf_ctx c node.irs))
        (cfBody_le env (collectBranchBody f node) _)
    · exact PM_ctxLe (PM_scanIf_ctx c node.irs)
  · exact ctxLe_rfl c

theorem cfNodeStep_seenInv (env : Env) (f : Func) (c : Ctx) (node : IRNode)
    (h : SeenInv c) : SeenInv (cfNodeStep env f c node) := by
  unfold cfNodeStep
  dsimp only
  split
  · split
    · exact cfBody_seenInv env _ _ (PM_seenInv (PM_scanIf_ctx c node.irs) h)
    · exact PM_seenInv (PM_scanIf_ctx c node.irs) h
  · exact h

/-- C1 (claim): if the condition of an `IF`/`IFLOOP` node is tainted after
the data-flow phase (witnessed by a `Condition` op of the node whose value
is tainted in the phase-2 input context), then after
`_propagate_control_flow_taint` every state variable listed in
`state_variables_written` of every node of the collected branch body has a
finding keyed `(canonical_name, node id)`. -/
theorem C1_control_flow_findings
    (env : Env) (f : Func) (c : Ctx) (node : IRNode) (v : Var)
    (hinv : SeenInv c)
    (hmem : node ∈ f.nodes)
    (htyp : node.typ = NodeTy.IF ∨ node.typ = NodeTy.IFLOOP)
    (hcond : IROp.condition v ∈ node.irs)
    (htaint : c.isTainted v = true) :
    ∀ bn ∈ collectBranchBody f node, ∀ svn ∈ bn.stateVariablesWritten,
      ∃ r, (svn, bn.nid, r) ∈ (propagateControlFlowTaint env f c).taintedStateWrites := by
  intro bn hbn svn hsv
  unfold propagateControlFlowTaint
  obtain ⟨l1, l2, hs⟩ := List.append_of_mem hmem
  rw [hs, List.foldl_append, List.foldl_cons]
  set c1 := l1.foldl (cfNodeStep env f) c with hc1
  have hle1 : CtxLe c c1 :=
    foldl_rel CtxLe (cfNodeStep env f) ctxLe_rfl (fun _ _ _ => ctxLe_trans)
      (cfNodeStep_le env f) l1 c
  have hinv1 : SeenInv c1 :=
    foldl_pres SeenInv (cfNodeStep env f) (cfNodeStep_seenInv env f) l1 c hinv
  have hflag : (scanIfIRs c1 node.irs).2 = true := by
    obtain ⟨m1, m2, m3⟩ := List.append_of_mem hcond
    unfold scanIfIRs
    rw [scanFold_flag]
    refine Or.inr ⟨m1, v, m2, m3, ?_⟩
    have hmono : TaintMono c (m1.foldl cfMarkStep c1) := by
      intro k hk
      exact (PM_cfMarkFold m1 c1).1 k (hle1.1 k hk)
    exact isTainted_of_mono hmono htaint
  have hstep : (svn, bn.nid) ∈ (cfNodeStep env f c1 node).seenWrites := by
    unfold cfNodeStep
    dsimp only
    have hb : (node.typ == NodeTy.IF || node.typ == NodeTy.IFLOOP) = true := by
      rcases htyp with h | h <;> rw [h] <;> rfl
    rw [if_pos hb, if_pos hflag]
    exact cfBody_ensures env (collectBranchBody f node) (scanIfIRs c1 node.irs).1 bn hbn svn hsv
  have hinvStep : SeenInv (cfNodeStep env f c1 node) := cfNodeStep_seenInv env f c1 node hinv1
  have hle2 : CtxLe (cfNodeStep env f c1 node) (l2.foldl (cfNodeStep env f) (cfNodeStep env f c1 node)) :=
    foldl_rel CtxLe (cfNodeStep env f) ctxLe_rfl (fun _ _ _ => ctxLe_trans)
      (cfNodeStep_le env f) l2 _
  have hinv2 : SeenInv (l2.foldl (cfNodeStep env f) (cfNodeStep env f c1 node)) :=
    foldl_pres SeenInv (cfNodeStep env f) (cfNodeStep_seenInv env f) l2 _ hinvStep
  exact hinv2 _ (hle2.2.2 _ hstep)

/-- Concrete `IF` node for the C1 witness. -/
def nodeC1If : IRNode :=
  { nid := 10, typ := .IF, irs := [.condition (.loc 100)], sons := [11],
    stateVariablesWritten := [] }

/-- Branch-body node writing `C.x`. -/
def nodeC1Body : IRNode :=
  { nid := 11, typ := .OTHER, irs := [], sons := [12],
    stateVariablesWritten := ["C.x"] }

/-- The matching `ENDIF` merge node. -/
def nodeC1End : IRNode :=
  { nid := 12, typ := .ENDIF, irs := [], sons := [],
    stateVariablesWritten := [] }

/-- Host function for the C1 witness. -/
def fFuncC1 : Func :=
  { canonicalName := "C.b", nodes := [nodeC1If, nodeC1Body, nodeC1End],
    contractDeclarer := some "C", isImplemented := true }

/-- Phase-2 input context with the condition value tainted. -/
def ctxC1 : Ctx := { initCtx fFuncC1 with tainted := [VarKey.obj 100] }

/-- Witness for C1 at a concrete input. -/
theorem C1_witness :
    ∃ r, ("C.x", 11, r) ∈
      (propagateControlFlowTaint envGas fFuncC1 ctxC1).taintedStateWrites := by
  refine C1_control_flow_findings envGas fFuncC1 ctxC1 nodeC1If (.loc 100) ?_
    (by decide) (Or.inl rfl) (by decide) (by decide) nodeC1Body (by decide) "C.x" (by decide)
  intro p hp
  simp [ctxC1, initCtx] at hp

/-! ### Overwrite-elimination lemmas -/

/-- Lookup in the per-variable write dict of `_remove_overwritten_findings`. -/
def lookupWrites (ws : List (String × List (Int × Bool))) (k : String) :
    Option (List (Int × Bool)) :=
  (ws.find? (fun p => p.1 == k)).map (fun p => p.2)

theorem mem_of_lookupWrites {ws : List (String × List (Int × Bool))} {s : String}
    {wl : List (Int × Bool)} (h : lookupWrites ws s = some wl) : (s, wl) ∈ ws := by
  unfold lookupWrites at h
  rcases Option.map_eq_some'.mp h with ⟨q, hq, hq2⟩
  have hmem := List.mem_of_find?_eq_some hq
  have hpred := List.find?_some hq
  have h1 : q.1 = s := by simpa using hpred
  have : q = (s, wl) := by
    cases q
    simp only at h1 hq2
    rw [h1, hq2]
  rwa [this] at hmem

/-- One step of the `to_remove` fold. -/
def toRemoveStep (acc : List String) (p : String × List (Int × Bool)) : List String :=
  if p.2.isEmpty then acc
  else
    match (sortWrites p.2).getLast? with
    | some q => if q.2 then acc else insertStr p.1 acc
    | none => acc

theorem overwriteRemovals_eq_fold (env : Env) (f : Func) (c : Ctx) :
    overwriteRemovals env f c = (collectDepth0Writes env f c).foldl toRemoveStep [] := rfl

theorem toRemoveStep_mono {s : String} (acc : List String)
    (p : String × List (Int × Bool)) (h : s ∈ acc) : s ∈ toRemoveStep acc p := by
  unfold toRemoveStep
  split
  · exact h
  · split
    · split
      · exact h
      · exact mem_insertStr_of_mem _ h
    · exact h

theorem mem_overwriteRemovals (env : Env) (f : Func) (c : Ctx) (s : String)
    (wl : List (Int × Bool))
    (hmem : (s, wl) ∈ collectDepth0Writes env f c)
    (hne : wl.isEmpty = false)
    (hlast : (sortWrites wl).getLast?.map Prod.snd = some false) :
    s ∈ overwriteRemovals env f c := by
  rw [overwriteRemovals_eq_fold]
  obtain ⟨l1, l2, hs⟩ := List.append_of_mem hmem
  rw [hs, List.foldl_append, List.foldl_cons]
  have h1 : s ∈ toRemoveStep (l1.foldl toRemoveStep []) (s, wl) := by
    unfold toRemoveStep
    rw [hne]
    simp only [Bool.false_eq_true, if_false]
    rcases Option.map_eq_some'.mp hlast with ⟨q, hq, hq2⟩
    rw [hq]
    simp only [hq2, Bool.false_eq_true, if_false]
    exact mem_insertStr_self s _
  exact foldl_pres (fun acc => s ∈ acc) toRemoveStep (fun b a hb => toRemoveStep_mono b a hb) l2 _ h1

/-- Does the operation avoid writing state variable `s` through a
reference variable?  (Encodes the claim's "unless `s` was also written via
a reference" side condition.) -/
def noRefWriteTo (env : Env) (s : String) (ir : IROp) : Bool :=
  match ir with
  | IROp.assignment (Var.ref o) _ =>
    (match resolveRef env (Var.ref o) with
     | Var.stateVar n _ => n != s
     | _ => true)
  | _ => true

/-- C2 (claim, read with its "unless" clause limiting the guarantee):
when the state variable `s` is never written through a reference variable
in the function, and the write list the eliminator collects for `s` (the
branch-depth-0 `Assignment`s to `s`, in node order) is non-empty with a
clean (untainted-rvalue) final write, then no finding for `s` survives
`_remove_overwritten_findings` and `seen_writes` is rebuilt from the
surviving findings. -/
theorem C2_overwrite_elimination (env : Env) (f : Func) (c : Ctx) (s : String)
    (wl : List (Int × Bool))
    (hnonempty : c.taintedStateWrites ≠ [])
    (hnoref : ∀ node ∈ f.nodes, ∀ ir ∈ node.irs, noRefWriteTo env s ir = true)
    (hlook : lookupWrites (collectDepth0Writes env f c) s = some wl)
    (hne : wl.isEmpty = false)
    (hlast : (sortWrites wl).getLast?.map Prod.snd = some false) :
    (∀ w ∈ (removeOverwrittenFindings env f c).taintedStateWrites, w.1 ≠ s) ∧
    (removeOverwrittenFindings env f c).seenWrites =
      (removeOverwrittenFindings env f c).taintedStateWrites.map (fun w => (w.1, w.2.1)) := by
  have hs : s ∈ overwriteRemovals env f c :=
    mem_overwriteRemovals env f c s wl (mem_of_lookupWrites hlook) hne hlast
  unfold removeOverwrittenFindings
  have h1 : c.taintedStateWrites.isEmpty = false := by
    cases h : c.taintedStateWrites
    · exact absurd h hnonempty
    · rfl
  rw [h1]
  simp only [Bool.false_eq_true, if_false]
  have h2 : (overwriteRemovals env f c).isEmpty = false := by
    cases h : overwriteRemovals env f c
    · rw [h] at hs; exact absurd hs (by simp)
    · rfl
  rw [h2]
  simp only [Bool.false_eq_true, if_false]
  constructor
  · intro w hw heq
    have hmf := List.of_mem_filter hw
    rw [heq] at hmf
    have hc : (overwriteRemovals env f c).contains s = true := List.elem_iff.mpr hs
    rw [hc] at hmf
    simp at hmf
  · trivial

/-- First node of the C2 witness: tainted write to `C.r`. -/
def nodeC2a : IRNode :=
  { nid := 0, typ := .OTHER,
    irs := [.assignment (.stateVar "C.r" 1) (.loc 100)],
    sons := [1], stateVariablesWritten := ["C.r"] }

/-- Second node: clean overwrite of `C.r` with the constant 50. -/
def nodeC2b : IRNode :=
  { nid := 1, typ := .OTHER,
    irs := [.assignment (.stateVar "C.r" 1) (.constant 50)],
    sons := [], stateVariablesWritten := ["C.r"] }

/-- Host function for the C2 witness. -/
def fFuncC2 : Func :=
  { canonicalName := "C.f2", nodes := [nodeC2a, nodeC2b],
    contractDeclarer := some "C", isImplemented := true }

/-- Post-phase-2 context of the C2 witness: `C.r` has a recorded finding
from the tainted write at node 0. -/
def ctxC2 : Ctx :=
  { initCtx fFuncC2 with
    tainted := [VarKey.obj 100, VarKey.state "C.r"],
    taintedStateWrites := [("C.r", 0, "gasleft()")],
    seenWrites := [("C.r", 0)] }

/-- Witness for C2 at a concrete input. -/
theorem C2_witness :
    (∀ w ∈ (removeOverwrittenFindings envGas fFuncC2 ctxC2).taintedStateWrites, w.1 ≠ "C.r") ∧
    (removeOverwrittenFindings envGas fFuncC2 ctxC2).seenWrites =
      (removeOverwrittenFindings envGas fFuncC2 ctxC2).taintedStateWrites.map
        (fun w => (w.1, w.2.1)) :=
  C2_overwrite_elimination envGas fFuncC2 ctxC2 "C.r" [(0, true), (1, false)]
    (by decide) (by decide) (by decide) (by decide) (by decide)

/-! ### Hex-formatting lemmas (claim C7) -/

/-- Number of hex digits `natToHexAux` produces (0 for 0). -/
def countHexDigits : Nat → Nat → Nat
  | 0, _ => 0
  | fuel + 1, n => if n = 0 then 0 else countHexDigits fuel (n / 16) + 1

theorem hexDigitVal_toHexDigit (m : Nat) (h : m < 16) :
    hexDigitVal (toHexDigit m) = some m := by
  interval_cases m <;> rfl

theorem toHexDigit_mem (m : Nat) (h : m < 16) :
    toHexDigit m ∈ "0123456789abcdef".data := by
  interval_cases m <;> decide

theorem natToHexAux_parse : ∀ (fuel n : Nat), n < 16 ^ fuel →
    ∀ (acc : List Char) (v : Nat),
      hexDigitsVal (natToHexAux fuel n acc) v =
        hexDigitsVal acc (v * 16 ^ countHexDigits fuel n + n) := by
  intro fuel
  induction fuel with
  | zero =>
    intro n hn acc v
    interval_cases n
    simp [natToHexAux, countHexDigits]
  | succ fuel ih =>
    intro n hn acc v
    by_cases h0 : n = 0
    · subst h0
      simp [natToHexAux, countHexDigits]
    · rw [natToHexAux, if_neg h0]
      have hdiv : n / 16 < 16 ^ fuel := by
        rw [pow_succ'] at hn
        exact Nat.div_lt_of_lt_mul hn
      rw [ih (n / 16) hdiv]
      have hstep : ∀ (w : Nat), hexDigitsVal (toHexDigit (n % 16) :: acc) w =
          hexDigitsVal acc (16 * w + n % 16) := by
        intro w
        rw [hexDigitsVal, hexDigitVal_toHexDigit (n % 16) (Nat.mod_lt n (by omega))]
      rw [hstep]
      congr 1
      rw [countHexDigits, if_neg h0]
      calc 16 * (v * 16 ^ countHexDigits fuel (n / 16) + n / 16) + n % 16
          = v * (16 ^ countHexDigits fuel (n / 16) * 16) + (16 * (n / 16) + n % 16) := by
            ring
        _ = v * 16 ^ (countHexDigits fuel (n / 16) + 1) + n := by
            rw [Nat.div_add_mod, pow_succ]

theorem natToHexAux_length : ∀ (fuel n : Nat), n < 16 ^ fuel → ∀ (acc : List Char),
    (natToHexAux fuel n acc).length = countHexDigits fuel n + acc.length := by
  intro fuel
  induction fuel with
  | zero =>
    intro n hn acc
    interval_cases n
    simp [natToHexAux, countHexDigits]
  | succ fuel ih =>
    intro n hn acc
    by_cases h0 : n = 0
    · subst h0; simp [natToHexAux, countHexDigits]
    · rw [natToHexAux, if_neg h0]
      have hdiv : n / 16 < 16 ^ fuel := by
        rw [pow_succ'] at hn
        exact Nat.div_lt_of_lt_mul hn
      rw [ih (n / 16) hdiv, countHexDigits, if_neg h0]
      simp
      omega

theorem natToHexAux_mem : ∀ (fuel n : Nat), n < 16 ^ fuel → ∀ (acc : List Char),
    ∀ ch ∈ natToHexAux fuel n acc, ch ∈ "0123456789abcdef".data ∨ ch ∈ acc := by
  intro fuel
  induction fuel with
  | zero =>
    intro n hn acc ch h
    interval_cases n
    simp only [natToHexAux] at h
    exact Or.inr h
  | succ fuel ih =>
    intro n hn acc ch h
    by_cases h0 : n = 0
    · subst h0
      simp only [natToHexAux, if_pos rfl] at h
      exact Or.inr h
    · rw [natToHexAux, if_neg h0] at h
      have hdiv : n / 16 < 16 ^ fuel := by
        rw [pow_succ'] at hn
        exact Nat.div_lt_of_lt_mul hn
      rcases ih (n / 16) hdiv _ ch h with h1 | h1
      · exact Or.inl h1
      · rcases List.mem_cons.mp h1 with h2 | h2
        · subst h2
          exact Or.inl (toHexDigit_mem _ (Nat.mod_lt n (by omega)))
        · exact Or.inr h2

theorem countHexDigits_le : ∀ (fuel n k : Nat), n < 16 ^ fuel → n < 16 ^ k →
    countHexDigits fuel n ≤ k := by
  intro fuel
  induction fuel with
  | zero => intro n k _ _; simp [countHexDigits]
  | succ fuel ih =>
    intro n k hn hk
    by_cases h0 : n = 0
    · subst h0; simp [countHexDigits]
    · rw [countHexDigits, if_neg h0]
      cases k with
      | zero =>
        simp only [pow_zero] at hk
        omega
      | succ k =>
        have hdiv : n / 16 < 16 ^ fuel := by
          rw [pow_succ'] at hn
          exact Nat.div_lt_of_lt_mul hn
        have hdivk : n / 16 < 16 ^ k := by
          rw [pow_succ'] at hk
          exact Nat.div_lt_of_lt_mul hk
        have := ih (n / 16) k hdiv hdivk
        omega

theorem lt_pow_self_16 (n : Nat) : n < 16 ^ (n + 1) := by
  calc n < 16 ^ n := Nat.lt_pow_self (by norm_num) n
    _ ≤ 16 ^ (n + 1) := Nat.pow_le_pow_right (by norm_num) (Nat.le_succ n)

theorem natToHex_parse (n : Nat) : hexDigitsVal (natToHex n) 0 = some n := by
  unfold natToHex
  split
  · subst n; rfl
  · rw [natToHexAux_parse (n + 1) n (lt_pow_self_16 n) [] 0]
    simp [hexDigitsVal]

theorem natToHex_length_le (n k : Nat) (hk : 1 ≤ k) (h : n < 16 ^ k) :
    (natToHex n).length ≤ k := by
  unfold natToHex
  split
  · simpa using hk
  · rw [natToHexAux_length (n + 1) n (lt_pow_self_16 n) []]
    simpa using countHexDigits_le (n + 1) n k (lt_pow_self_16 n) h

theorem natToHex_mem (n : Nat) : ∀ ch ∈ natToHex n, ch ∈ "0123456789abcdef".data := by
  unfold natToHex
  split
  · intro ch h
    simp only [List.mem_singleton] at h
    subst h
    decide
  · intro ch h
    rcases natToHexAux_mem (n + 1) n (lt_pow_self_16 n) [] ch h with h1 | h1
    · exact h1
    · simp at h1

theorem hexDigitsVal_zeros (k : Nat) (ds : List Char) :
    hexDigitsVal (List.replicate k '0' ++ ds) 0 = hexDigitsVal ds 0 := by
  induction k with
  | zero => simp
  | succ k ih =>
    rw [List.replicate_succ, List.cons_append, hexDigitsVal]
    have h0 : hexDigitVal '0' = some 0 := rfl
    rw [h0]
    simpa using ih

/-- C7 (amended): for a successful storage-layout lookup (any slot with
`0 ≤ slot < 2^256 = 16^64`), `slot_hex` is exactly 66 characters, starts
with `0x`, continues with 64 lowercase hex digits, and
`int(slot_hex, 16) == slot`.  (For a failed lookup the slot is `-1` and
`slot_hex` is 66 characters starting `0x-`, which is not a hex-digit
string — see the counterexample.) -/
theorem C7_amended_slot_hex (slot : Int) (h0 : 0 ≤ slot) (hlt : slot < 16 ^ 64) :
    (slotHexStr slot).data.length = 66 ∧
    (slotHexStr slot).data.take 2 = ['0', 'x'] ∧
    (∀ ch ∈ (slotHexStr slot).data.drop 2, ch ∈ "0123456789abcdef".data) ∧
    parseHexPy (slotHexStr slot) = some slot := by
  have hcast : (slot.toNat : Int) = slot := Int.toNat_of_nonneg h0
  have hnat : slot.toNat < 16 ^ 64 := by
    have : (slot.toNat : Int) < ((16 ^ 64 : Nat) : Int) := by
      rw [hcast]
      exact_mod_cast hlt
    exact_mod_cast this
  have hlen : (natToHex slot.toNat).length ≤ 64 :=
    natToHex_length_le slot.toNat 64 (by norm_num) hnat
  have hdata : (slotHexStr slot).data =
      '0' :: 'x' :: (List.replicate (64 - (natToHex slot.toNat).length) '0' ++
        natToHex slot.toNat) := by
    show ('0' :: 'x' :: pyHex064 slot) = _
    rw [pyHex064, if_neg (not_lt.mpr h0)]
    rfl
  have hlen64 : (List.replicate (64 - (natToHex slot.toNat).length) '0' ++
      natToHex slot.toNat).length = 64 := by
    simp only [List.length_append, List.length_replicate]
    omega
  refine ⟨?_, ?_, ?_, ?_⟩
  · rw [hdata]
    simp only [List.length_cons, hlen64]
  · rw [hdata]
    rfl
  · rw [hdata]
    intro ch h
    simp only [List.drop_succ_cons, List.drop_zero] at h
    rcases List.mem_append.mp h with h1 | h1
    · have := List.eq_of_mem_replicate h1
      subst this
      decide
    · exact natToHex_mem slot.toNat ch h1
  · unfold parseHexPy
    rw [hdata]
    have hsign : stripSign ('0' :: 'x' :: (List.replicate (64 - (natToHex slot.toNat).length) '0' ++
        natToHex slot.toNat)) = (false, '0' :: 'x' :: (List.replicate (64 - (natToHex slot.toNat).length) '0' ++
        natToHex slot.toNat)) := by
      unfold stripSign
      dsimp only
      rw [if_neg (by decide), if_neg (by decide)]
    rw [hsign]
    have hstrip : strip0x ('0' :: 'x' :: (List.replicate (64 - (natToHex slot.toNat).length) '0' ++
        natToHex slot.toNat)) = List.replicate (64 - (natToHex slot.toNat).length) '0' ++
        natToHex slot.toNat := by
      unfold strip0x
      dsimp only
      rw [if_pos (by decide)]
    dsimp only
    rw [hstrip]
    have hne : (List.replicate (64 - (natToHex slot.toNat).length) '0' ++
        natToHex slot.toNat).isEmpty = false := by
      cases h : (List.replicate (64 - (natToHex slot.toNat).length) '0' ++ natToHex slot.toNat) with
      | nil => rw [h] at hlen64; simp at hlen64
      | cons a t => rfl
    rw [hne]
    simp only [Bool.false_eq_true, if_false]
    rw [hexDigitsVal_zeros, natToHex_parse]
    simp only [Bool.false_eq_true, if_false]
    rw [hcast]

/-- Witness for the amended C7 at slot 5. -/
theorem C7_amended_witness :
    (slotHexStr 5).data.length = 66 ∧
    (slotHexStr 5).data.take 2 = ['0', 'x'] ∧
    (∀ ch ∈ (slotHexStr 5).data.drop 2, ch ∈ "0123456789abcdef".data) ∧
    parseHexPy (slotHexStr 5) = some 5 :=
  C7_amended_slot_hex 5 (by norm_num) (by norm_num)

/-! ### Filter-length lemmas shared by the termination arguments -/

theorem length_filter_le_of_impl {α : Type _} (p q : α → Bool)
    (h : ∀ a, p a = true → q a = true) :
    ∀ l : List α, (l.filter p).length ≤ (l.filter q).length := by
  intro l
  induction l with
  | nil => simp
  | cons a t ih =>
    rw [List.filter_cons, List.filter_cons]
    by_cases hp : p a = true
    · rw [if_pos hp, if_pos (h a hp)]
      simpa using ih
    · rw [if_neg (by simp [hp])]
      by_cases hq : q a = true
      · rw [if_pos hq]
        exact le_trans ih (by simp)
      · rw [if_neg (by simp [hq])]
        exact ih

theorem length_filter_lt {α : Type _} (p q : α → Bool)
    (h : ∀ a, p a = true → q a = true) (x : α)
    (hpx : p x = false) (hqx : q x = true) :
    ∀ l : List α, x ∈ l → (l.filter p).length < (l.filter q).length := by
  intro l
  induction l with
  | nil => intro hx; simp at hx
  | cons a t ih =>
    intro hx
    rw [List.filter_cons, List.filter_cons]
    rcases List.mem_cons.mp hx with h1 | h1
    · subst h1
      rw [if_neg (by simp [hpx]), if_pos hqx]
      exact Nat.lt_succ_of_le (length_filter_le_of_impl p q h t)
    · by_cases hpa : p a = true
      · rw [if_pos hpa, if_pos (h a hpa)]
        simpa using ih h1
      · rw [if_neg (by simp [hpa])]
        by_cases hqa : q a = true
        · rw [if_pos hqa]
          exact Nat.lt_succ_of_lt (ih h1)
        · rw [if_neg (by simp [hqa])]
          exact ih h1

/-! ### Reference-resolver lemmas (claim C9) -/

/-- Is the variable a reference variable? -/
def isRefVar : Var → Bool
  | .ref _ => true
  | _ => false

/-- How much of the reference environment's domain is still unvisited. -/
def refGap (env : Env) (seen : List Nat) : Nat :=
  ((env.refEnv.map Prod.fst).filter (fun o => !(decide (o ∈ seen)))).length

theorem refGap_le (env : Env) : refGap env [] ≤ env.refEnv.length := by
  unfold refGap
  calc ((env.refEnv.map Prod.fst).filter _).length
      ≤ (env.refEnv.map Prod.fst).length := List.length_filter_le _ _
    _ = env.refEnv.length := List.length_map _ _

theorem mem_dom_of_lookupOrigin {env : Env} {o : Nat} {v : Var}
    (h : lookupOrigin env o = some v) : o ∈ env.refEnv.map Prod.fst := by
  unfold lookupOrigin at h
  rcases Option.map_eq_some'.mp h with ⟨q, hq, _⟩
  have hmem := List.mem_of_find?_eq_some hq
  have hpred := List.find?_some hq
  have h1 : q.1 = o := by simpa using hpred
  exact h1 ▸ List.mem_map_of_mem Prod.fst hmem

theorem refGap_insert_lt (env : Env) (seen : List Nat) (o : Nat) {v : Var}
    (hdom : lookupOrigin env o = some v) (hseen : o ∉ seen) :
    refGap env (o :: seen) < refGap env seen := by
  unfold refGap
  refine length_filter_lt _ _ ?_ o ?_ ?_ _ (mem_dom_of_lookupOrigin hdom)
  · intro a ha
    simp only [Bool.not_eq_true', decide_eq_false_iff_not, List.mem_cons, not_or] at ha ⊢
    exact ha.2
  · simp
  · simpa using hseen

theorem resolveRefCore_fuel_stable (env : Env) :
    ∀ (f1 : Nat), ∀ (f2 : Nat) (seen : List Nat) (v : Var),
      refGap env seen < f1 → refGap env seen < f2 →
      resolveRefCore env f1 seen v = resolveRefCore env f2 seen v := by
  intro f1
  induction f1 with
  | zero => intro f2 seen v h1 _; omega
  | succ f1 ih =>
    intro f2 seen v h1 h2
    cases f2 with
    | zero => omega
    | succ f2 =>
      show resolveRefCore env (f1 + 1) seen v = resolveRefCore env (f2 + 1) seen v
      cases v with
      | ref o =>
        rw [resolveRefCore, resolveRefCore]
        by_cases hs : o ∈ seen
        · rw [if_pos hs, if_pos hs]
        · rw [if_neg hs, if_neg hs]
          cases hl : lookupOrigin env o with
          | none => rfl
          | some v' =>
            have hlt := refGap_insert_lt env seen o hl hs
            exact ih f2 (o :: seen) v' (by omega) (by omega)
      | stateVar s oid => rfl
      | composed n oid => rfl
      | solidityVar n oid => rfl
      | constant oid => rfl
      | loc oid => rfl

theorem resolveRefCore_char (env : Env) :
    ∀ (fuel : Nat) (seen : List Nat) (v : Var), refGap env seen < fuel →
      (∀ x ∈ seen, x ∈ (resolveRefCore env fuel seen v).2) ∧
      (∀ o, (resolveRefCore env fuel seen v).1 = Var.ref o →
        o ∈ (resolveRefCore env fuel seen v).2 ∨ lookupOrigin env o = none) := by
  intro fuel
  induction fuel with
  | zero => intro seen v h; omega
  | succ fuel ih =>
    intro seen v hgap
    cases v with
    | ref o =>
      rw [resolveRefCore]
      by_cases hs : o ∈ seen
      · rw [if_pos hs]
        exact ⟨fun x hx => hx, fun o' ho' => Or.inl (by
          simp only at ho'
          cases ho'
          exact hs)⟩
      · rw [if_neg hs]
        cases hl : lookupOrigin env o with
        | none =>
          refine ⟨fun x hx => hx, fun o' ho' => ?_⟩
          simp only at ho'
          cases ho'
          exact Or.inr hl
        | some v' =>
          have hlt := refGap_insert_lt env seen o hl hs
          obtain ⟨hsub, hchar⟩ := ih (o :: seen) v' (by omega)
          exact ⟨fun x hx => hsub x (List.mem_cons_of_mem _ hx), hchar⟩
    | stateVar s oid =>
      exact ⟨fun x hx => hx, fun o' ho' => Var.noConfusion ho'⟩
    | composed n oid =>
      exact ⟨fun x hx => hx, fun o' ho' => Var.noConfusion ho'⟩
    | solidityVar n oid =>
      exact ⟨fun x hx => hx, fun o' ho' => Var.noConfusion ho'⟩
    | constant oid =>
      exact ⟨fun x hx => hx, fun o' ho' => Var.noConfusion ho'⟩
    | loc oid =>
      exact ⟨fun x hx => hx, fun o' ho' => Var.noConfusion ho'⟩

/-- C9 (amended): the resolver terminates — its result is stable for any
fuel beyond the unvisited-domain bound; a non-reference input is returned
unchanged (the walk stops at the first non-reference); and when the result
is still a reference, the walk was stopped either by the cycle guard (the
returned reference's id having already been visited) or by a reference
with no modelled origin.  On a cycle the returned node is the revisited
one, not the last non-repeated node (see the counterexample). -/
theorem C9_amended_resolver (env : Env) (v : Var) :
    (∀ fuel, refGap env [] < fuel →
      (resolveRefCore env fuel [] v).1 = resolveRef env v) ∧
    (isRefVar v = false → resolveRef env v = v) ∧
    (∀ o, resolveRef env v = Var.ref o →
      o ∈ (resolveRefCore env (env.refEnv.length + 1) [] v).2 ∨
        lookupOrigin env o = none) := by
  have hbound : refGap env [] < env.refEnv.length + 1 :=
    Nat.lt_succ_of_le (refGap_le env)
  refine ⟨?_, ?_, ?_⟩
  · intro fuel hfuel
    unfold resolveRef
    rw [resolveRefCore_fuel_stable env fuel (env.refEnv.length + 1) [] v hfuel hbound]
  · intro h
    cases v with
    | ref o => simp [isRefVar] at h
    | stateVar s oid => rfl
    | composed n oid => rfl
    | solidityVar n oid => rfl
    | constant oid => rfl
    | loc oid => rfl
  · intro o ho
    exact (resolveRefCore_char env (env.refEnv.length + 1) [] v hbound).2 o ho

/-- Witness for the amended C9 on the cyclic chain: the returned
reference's id was visited by the walk (the cycle guard fired). -/
theorem C9_amended_witness :
    0 ∈ (resolveRefCore envC9 (envC9.refEnv.length + 1) [] (.ref 0)).2 ∨
      lookupOrigin envC9 0 = none :=
  (C9_amended_resolver envC9 (.ref 0)).2.2 0 (by decide)

/-! ### Interprocedural termination (claim C5) -/

/-- Domain of the callee-state cache. -/
def cscDom (csc : CSC) : List String := csc.map Prod.fst

/-- Canonical names of the環 environment's functions. -/
def envNames (env : Env) : List String := env.funcs.map Func.canonicalName

/-- Environment functions not yet seeded in the callee-state cache; the
measure that every recursive descent of `_callee_tainted_state_vars`
strictly decreases. -/
def cscGap (env : Env) (csc : CSC) : Nat :=
  ((envNames env).filter (fun n => !(decide (n ∈ cscDom csc)))).length

theorem cscDom_cons (k : String) (v : List String) (csc : CSC) :
    cscDom ((k, v) :: csc) = k :: cscDom csc := rfl

theorem lookupS_none_notin {csc : CSC} {k : String} (h : lookupS csc k = none) :
    k ∉ cscDom csc := by
  intro hmem
  rcases List.mem_map.mp hmem with ⟨p, hp, hpk⟩
  unfold lookupS at h
  rw [Option.map_eq_none'] at h
  have h2 := List.find?_eq_none.mp h p hp
  rw [hpk] at h2
  simp at h2

theorem cscGap_insert_lt (env : Env) (g : Func) (hg : g ∈ env.funcs)
    {csc : CSC} (hnotin : g.canonicalName ∉ cscDom csc) (v : List String) :
    cscGap env ((g.canonicalName, v) :: csc) < cscGap env csc := by
  unfold cscGap
  refine length_filter_lt _ _ ?_ g.canonicalName ?_ ?_ _ ?_
  · intro a ha
    simp only [Bool.not_eq_true', decide_eq_false_iff_not, cscDom_cons,
      List.mem_cons, not_or] at ha ⊢
    exact ha.2
  · simp [cscDom_cons]
  · simpa using hnotin
  · exact List.mem_map_of_mem Func.canonicalName hg

theorem cscGap_cons_le (env : Env) (k : String) (v : List String) (csc : CSC) :
    cscGap env ((k, v) :: csc) ≤ cscGap env csc := by
  unfold cscGap
  refine length_filter_le_of_impl _ _ ?_ _
  intro a ha
  simp only [Bool.not_eq_true', decide_eq_false_iff_not, cscDom_cons,
    List.mem_cons, not_or] at ha ⊢
  exact ha.2

/-- Cache-domain monotonicity between two cache states. -/
def CscDomSub (csc csc' : CSC) : Prop := ∀ k, k ∈ cscDom csc → k ∈ cscDom csc'

/-- The induction invariant: below the fuel bound, the analysis function
succeeds, only grows the callee-state cache's domain, and never increases
the gap measure. -/
def AnalyzeOK (env : Env) (A : AnalyzeFn) (bound : Nat) : Prop :=
  ∀ g ctc csc, cscGap env csc < bound →
    ∃ out, A g ctc csc = some out ∧ CscDomSub csc out.2.2 ∧
      cscGap env out.2.2 ≤ cscGap env csc

theorem ctsv_ok {env : Env} {A : AnalyzeFn} {bound : Nat}
    (hA : AnalyzeOK env A bound) (g : Func) (hg : g ∈ env.funcs)
    (ctc : CTC) (csc : CSC) (hgap : cscGap env csc ≤ bound) :
    ∃ out, calleeTaintedStateVarsCore A env g ctc csc = some out ∧
      CscDomSub csc out.2.2 ∧ cscGap env out.2.2 ≤ cscGap env csc := by
  unfold calleeTaintedStateVarsCore
  dsimp only
  cases hl : lookupS csc g.canonicalName with
  | some v =>
    exact ⟨(v, ctc, csc), rfl, fun k h => h, le_refl _⟩
  | none =>
    dsimp only
    have hnotin : g.canonicalName ∉ cscDom csc := lookupS_none_notin hl
    have hlt : cscGap env ((g.canonicalName, ([] : List String)) :: csc) < cscGap env csc :=
      cscGap_insert_lt env g hg hnotin []
    by_cases hdecl : g.contractDeclarer.isNone = true
    · rw [if_pos hdecl]
      exact ⟨([], ctc, (g.canonicalName, []) :: csc), rfl,
        fun k h => List.mem_cons_of_mem _ h, le_of_lt hlt⟩
    · rw [if_neg hdecl]
      obtain ⟨out1, hout1, hsub1, hle1⟩ :=
        hA g ctc ((g.canonicalName, ([] : List String)) :: csc) (by omega)
      obtain ⟨w, ctc2, csc2⟩ := out1
      rw [hout1]
      dsimp only
      refine ⟨_, rfl, ?_, ?_⟩
      · intro k hk
        refine List.mem_cons_of_mem _ (hsub1 k ?_)
        rw [cscDom_cons]
        exact List.mem_cons_of_mem _ hk
      · calc cscGap env ((g.canonicalName, dedupStrs (w.map (fun w => w.1))) :: csc2)
            ≤ cscGap env csc2 := cscGap_cons_le env _ _ csc2
          _ ≤ cscGap env ((g.canonicalName, []) :: csc) := hle1
          _ ≤ cscGap env csc := le_of_lt hlt

theorem hic_ok {env : Env} {A : AnalyzeFn} {bound : Nat}
    (hA : AnalyzeOK env A bound) (lvOpt : Option Var) (cname : Option String)
    (args : List Var) (c : Ctx) (ctc : CTC) (csc : CSC)
    (hgap : cscGap env csc ≤ bound) :
    ∃ out, handleInternalCallCore A env lvOpt cname args c ctc csc = some out ∧
      CscDomSub csc out.2.2 ∧ cscGap env out.2.2 ≤ cscGap env csc := by
  unfold handleInternalCallCore
  cases hc : cname.bind (lookupFunc env) with
  | none =>
    exact ⟨(c, ctc, csc), rfl, fun k h => h, le_refl _⟩
  | some callee =>
    dsimp only
    have hmem : callee ∈ env.funcs := by
      rcases Option.bind_eq_some.mp hc with ⟨nm, _, hfind⟩
      exact List.mem_of_find?_eq_some hfind
    obtain ⟨out1, hout1, hsub1, hle1⟩ := ctsv_ok hA callee hmem
      (if (lookupB ctc callee.canonicalName).isSome = true then ctc
       else (callee.canonicalName, calleeIntroducesTaint callee) :: ctc) csc hgap
    obtain ⟨svs, ctc2, csc2⟩ := out1
    rw [hout1]
    exact ⟨_, rfl, hsub1, hle1⟩

theorem processIR_ok {env : Env} {A : AnalyzeFn} {bound : Nat}
    (hA : AnalyzeOK env A bound) (node : IRNode) (ir : IROp) (c : Ctx)
    (ctc : CTC) (csc : CSC) (hgap : cscGap env csc ≤ bound) :
    ∃ out, processIRCore A env node ir c ctc csc = some out ∧
      CscDomSub csc out.2.2 ∧ cscGap env out.2.2 ≤ cscGap env csc := by
  cases ir with
  | internalCall lvOpt cname args =>
    obtain ⟨out, hout, hsub, hle⟩ := hic_ok hA lvOpt cname args
      (gasSeedStep (aliasTrackStep c (.internalCall lvOpt cname args))
        (.internalCall lvOpt cname args)) ctc csc hgap
    exact ⟨out, hout, hsub, hle⟩
  | assignment lv rv =>
    unfold processIRCore
    dsimp only
    split
    · exact ⟨_, rfl, fun k h => h, le_refl _⟩
    · exact ⟨_, rfl, fun k h => h, le_refl _⟩
  | binary lv l r => exact ⟨_, rfl, fun k h => h, le_refl _⟩
  | unary lv rv => exact ⟨_, rfl, fun k h => h, le_refl _⟩
  | typeConversion lv v => exact ⟨_, rfl, fun k h => h, le_refl _⟩
  | index lv l r => exact ⟨_, rfl, fun k h => h, le_refl _⟩
  | unpack lv t => exact ⟨_, rfl, fun k h => h, le_refl _⟩
  | solidityCall fname args lvOpt =>
    unfold processIRCore
    dsimp only
    split
    · exact ⟨_, rfl, fun k h => h, le_refl _⟩
    · split
      · exact ⟨_, rfl, fun k h => h, le_refl _⟩
      · split
        · exact ⟨_, rfl, fun k h => h, le_refl _⟩
        · exact ⟨_, rfl, fun k h => h, le_refl _⟩
  | newContract lvOpt salt args =>
    unfold processIRCore
    dsimp only
    split
    · exact ⟨_, rfl, fun k h => h, le_refl _⟩
    · exact ⟨_, rfl, fun k h => h, le_refl _⟩
  | condition v => exact ⟨_, rfl, fun k h => h, le_refl _⟩
  | other lvOpt reads => exact ⟨_, rfl, fun k h => h, le_refl _⟩

theorem processIRs_ok {env : Env} {A : AnalyzeFn} {bound : Nat}
    (hA : AnalyzeOK env A bound) (node : IRNode) :
    ∀ (irs : List IROp) (c : Ctx) (ctc : CTC) (csc : CSC),
      cscGap env csc ≤ bound →
      ∃ out, processIRs A env node irs c ctc csc = some out ∧
        CscDomSub csc out.2.2 ∧ cscGap env out.2.2 ≤ cscGap env csc := by
  intro irs
  induction irs with
  | nil =>
    intro c ctc csc _
    exact ⟨(c, ctc, csc), rfl, fun k h => h, le_refl _⟩
  | cons ir rest ih =>
    intro c ctc csc hgap
    obtain ⟨out1, hout1, hsub1, hle1⟩ := processIR_ok hA node ir c ctc csc hgap
    obtain ⟨c1, ctc1, csc1⟩ := out1
    obtain ⟨out2, hout2, hsub2, hle2⟩ := ih c1 ctc1 csc1 (le_trans hle1 hgap)
    refine ⟨out2, ?_, fun k h => hsub2 k (hsub1 k h), le_trans hle2 hle1⟩
    rw [processIRs, hout1]
    exact hout2

theorem processNode_ok {env : Env} {A : AnalyzeFn} {bound : Nat}
    (hA : AnalyzeOK env A bound) (node : IRNode) (c : Ctx) (ctc : CTC)
    (csc : CSC) (hgap : cscGap env csc ≤ bound) :
    ∃ out, processNodeDataFlowCore A env node c ctc csc = some out ∧
      CscDomSub csc out.2.2 ∧ cscGap env out.2.2 ≤ cscGap env csc := by
  unfold processNodeDataFlowCore
  obtain ⟨out1, hout1, hsub1, hle1⟩ := processIRs_ok hA node node.irs c ctc csc hgap
  obtain ⟨c1, ctc1, csc1⟩ := out1
  rw [hout1]
  exact ⟨_, rfl, hsub1, hle1⟩

theorem analyzeNodes_ok {env : Env} {A : AnalyzeFn} {bound : Nat}
    (hA : AnalyzeOK env A bound) :
    ∀ (nodes : List IRNode) (c : Ctx) (ctc : CTC) (csc : CSC),
      cscGap env csc ≤ bound →
      ∃ out, analyzeNodes A env nodes c ctc csc = some out ∧
        CscDomSub csc out.2.2 ∧ cscGap env out.2.2 ≤ cscGap env csc := by
  intro nodes
  induction nodes with
  | nil =>
    intro c ctc csc _
    exact ⟨(c, ctc, csc), rfl, fun k h => h, le_refl _⟩
  | cons n rest ih =>
    intro c ctc csc hgap
    obtain ⟨out1, hout1, hsub1, hle1⟩ := processNode_ok hA n c ctc csc hgap
    obtain ⟨c1, ctc1, csc1⟩ := out1
    obtain ⟨out2, hout2, hsub2, hle2⟩ := ih c1 ctc1 csc1 (le_trans hle1 hgap)
    refine ⟨out2, ?_, fun k h => hsub2 k (hsub1 k h), le_trans hle2 hle1⟩
    rw [analyzeNodes, hout1]
    exact hout2

theorem analyzeFunction_AOK (env : Env) :
    ∀ fuel, AnalyzeOK env (fun g ctc csc => analyzeFunction fuel env g ctc csc) fuel := by
  intro fuel
  induction fuel with
  | zero => intro g ctc csc h; omega
  | succ fuel ih =>
    intro g ctc csc hgap
    have hgap' : cscGap env csc ≤ fuel := by omega
    obtain ⟨out1, hout1, hsub1, hle1⟩ :=
      analyzeNodes_ok ih g.nodes (initCtx g) ctc csc hgap'
    obtain ⟨c1, ctc1, csc1⟩ := out1
    refine ⟨((removeOverwrittenFindings env g
        (propagateControlFlowTaint env g c1)).taintedStateWrites, ctc1, csc1),
      ?_, hsub1, hle1⟩
    show analyzeFunction (fuel + 1) env g ctc csc = _
    rw [analyzeFunction, hout1]

/-- C5 (claim): the interprocedural analysis terminates on every call
graph, cyclic ones included — with fuel exceeding the number of
environment functions not yet seeded in the callee-state cache the
analysis returns a result — and a cyclic re-entry into a callee whose
cache entry is already seeded returns the seeded summary instead of
recursing. -/
theorem C5_analysis_terminates (env : Env) (f : Func) (ctc : CTC) (csc : CSC) :
    (∃ out, analyzeFunction (cscGap env csc + 1) env f ctc csc = some out) ∧
    (∀ (A : AnalyzeFn) (g : Func) (ctc2 : CTC) (csc2 : CSC) (v : List String),
      calleeTaintedStateVarsCore A env g ctc2 ((g.canonicalName, v) :: csc2) =
        some (v, ctc2, (g.canonicalName, v) :: csc2)) := by
  constructor
  · obtain ⟨out, h, _, _⟩ :=
      analyzeFunction_AOK env (cscGap env csc + 1) f ctc csc (by omega)
    exact ⟨out, h⟩
  · intro A g ctc2 csc2 v
    unfold calleeTaintedStateVarsCore
    dsimp only
    have hl : lookupS ((g.canonicalName, v) :: csc2) g.canonicalName = some v := by
      simp [lookupS]
    rw [hl]

/-! ### Reason-string uniformity (claim C6) -/

/-- The invariant carried through a function's analysis: the context still
belongs to `f`, the memoised reason (when set) is the function-level
reason string, and every recorded finding carries that string. -/
def ReasonOK (env : Env) (f : Func) (c : Ctx) : Prop :=
  c.function = f ∧
  (c.cachedReason = none ∨ c.cachedReason = some (reasonString env f)) ∧
  ∀ w ∈ c.taintedStateWrites, w.2.2 = reasonString env f

theorem ReasonOK_of_PM {env : Env} {f : Func} {c c' : Ctx} (h : PM c c')
    (hr : ReasonOK env f c) : ReasonOK env f c' := by
  obtain ⟨_, hf, hw, _, hcr⟩ := h
  obtain ⟨r1, r2, r3⟩ := hr
  refine ⟨hf.trans r1, ?_, ?_⟩
  · rw [hcr]; exact r2
  · rw [hw]; exact r3

theorem inferReason_reasonOK {env : Env} {f : Func} {c : Ctx} (h : ReasonOK env f c) :
    (inferReason env c).1 = reasonString env f ∧ ReasonOK env f (inferReason env c).2 := by
  obtain ⟨r1, r2, r3⟩ := h
  unfold inferReason
  rcases r2 with h2 | h2
  · rw [h2]
    dsimp only
    rw [r1]
    exact ⟨rfl, ⟨rfl, Or.inr rfl, r3⟩⟩
  · rw [h2]
    exact ⟨rfl, ⟨r1, Or.inr h2, r3⟩⟩

theorem recordStateWrite_reasonOK (env : Env) (lv : Var) (node : IRNode)
    {f : Func} {c : Ctx} (h : ReasonOK env f c) :
    ReasonOK env f (recordStateWrite env lv node c) := by
  unfold recordStateWrite
  split
  · split
    · split
      · exact h
      · obtain ⟨hval, hok⟩ := inferReason_reasonOK h
        obtain ⟨r1, r2, r3⟩ := hok
        refine ⟨r1, r2, ?_⟩
        intro w hw
        rcases List.mem_append.mp hw with h1 | h1
        · exact r3 w h1
        · simp only [List.mem_singleton] at h1
          rw [h1]
          exact hval
    · exact h
  · exact h

theorem cfRecordSV_reasonOK (env : Env) (bn : IRNode) (svn : String)
    {f : Func} {c : Ctx} (h : ReasonOK env f c) :
    ReasonOK env f (cfRecordSV env bn c svn) := by
  unfold cfRecordSV
  split
  · exact h
  · obtain ⟨hval, hok⟩ := inferReason_reasonOK h
    obtain ⟨r1, r2, r3⟩ := hok
    refine ⟨r1, r2, ?_⟩
    intro w hw
    rcases List.mem_append.mp hw with h1 | h1
    · exact r3 w h1
    · simp only [List.mem_singleton] at h1
      rw [h1]
      exact hval

/-- The combined alias-tracking and gas-seeding prefix of the per-IR
dispatch is a pure marking step. -/
theorem PM_prep (c : Ctx) (ir : IROp) :
    PM c (gasSeedStep (aliasTrackStep c ir) ir) :=
  PM_trans (PM_aliasTrackStep c ir) (PM_gasSeedStep _ ir)

theorem hic_reasonOK (A : AnalyzeFn) (env : Env) (lvOpt : Option Var)
    (cname : Option String) (args : List Var) {f : Func} {c : Ctx}
    (ctc : CTC) (csc : CSC) (out : Ctx × CTC × CSC)
    (hrun : handleInternalCallCore A env lvOpt cname args c ctc csc = some out)
    (h : ReasonOK env f c) : ReasonOK env f out.1 := by
  unfold handleInternalCallCore at hrun
  cases hc : cname.bind (lookupFunc env) with
  | none =>
    rw [hc] at hrun
    cases hrun
    exact h
  | some callee =>
    rw [hc] at hrun
    dsimp only at hrun
    cases hv : calleeTaintedStateVarsCore A env callee
        (if (lookupB ctc callee.canonicalName).isSome = true then ctc
         else (callee.canonicalName, calleeIntroducesTaint callee) :: ctc) csc with
    | none => rw [hv] at hrun; cases hrun
    | some triple =>
      rw [hv] at hrun
      obtain ⟨svs, ctc2, csc2⟩ := triple
      dsimp only at hrun
      cases hrun
      have hm1 : PM c (match lvOpt with
          | some lv =>
            if (args.any (fun a => !isConstantVar a && c.isTainted a) ||
                (lookupB (if (lookupB ctc callee.canonicalName).isSome = true then ctc
                  else (callee.canonicalName, calleeIntroducesTaint callee) :: ctc)
                  callee.canonicalName).getD false) = true then c.mark lv else c
          | none => c) := by
        cases lvOpt with
        | some lv =>
          dsimp only
          repeat' split
          all_goals first | exact PM_mark c lv | exact PM_rfl c
        | none => exact PM_rfl c
      have hm2 : ∀ (c0 : Ctx), PM c0 (svs.foldl Ctx.markStateName c0) := fun c0 =>
        foldl_rel PM Ctx.markStateName PM_rfl (fun _ _ _ => PM_trans)
          (fun b a => PM_markStateName b a) svs c0
      exact ReasonOK_of_PM
        (PM_trans hm1 (PM_trans (hm2 _) (PM_propagateCallerTaint env callee _))) h

theorem processIR_reasonOK (A : AnalyzeFn) (env : Env) (node : IRNode) (ir : IROp)
    {f : Func} {c : Ctx} (ctc : CTC) (csc : CSC) (out : Ctx × CTC × CSC)
    (hrun : processIRCore A env node ir c ctc csc = some out)
    (h : ReasonOK env f c) : ReasonOK env f out.1 := by
  have hprep : ReasonOK env f (gasSeedStep (aliasTrackStep c ir) ir) :=
    ReasonOK_of_PM (PM_prep c ir) h
  cases ir with
  | internalCall lvOpt cname args =>
    exact hic_reasonOK A env lvOpt cname args _ _ out hrun hprep
  | assignment lv rv =>
    unfold processIRCore at hrun
    dsimp only at hrun
    split at hrun
    · cases hrun
      exact recordStateWrite_reasonOK env lv node (ReasonOK_of_PM (PM_mark _ lv) hprep)
    · cases hrun
      exact hprep
  | binary lv l r =>
    unfold processIRCore at hrun
    dsimp only at hrun
    cases hrun
    exact ReasonOK_of_PM (PM_markIfAnyTainted _ (some lv) [l, r]) hprep
  | unary lv rv =>
    unfold processIRCore at hrun
    dsimp only at hrun
    cases hrun
    refine ReasonOK_of_PM ?_ hprep
    dsimp only
    split
    · exact PM_mark _ lv
    · exact PM_rfl _
  | typeConversion lv v =>
    unfold processIRCore at hrun
    dsimp only at hrun
    cases hrun
    refine ReasonOK_of_PM ?_ hprep
    dsimp only
    by_cases hti : (gasSeedStep (aliasTrackStep c (IROp.typeConversion lv v))
        (IROp.typeConversion lv v)).isTainted v = true
    · rw [if_pos hti]
      by_cases hms : ((gasSeedStep (aliasTrackStep c (IROp.typeConversion lv v))
          (IROp.typeConversion lv v)).mark lv).isMsgSender v = true
      · rw [if_pos hms]
        exact PM_trans (PM_mark _ lv) (PM_markMsgSenderAlias _ lv)
      · rw [if_neg hms]
        exact PM_mark _ lv
    · rw [if_neg hti]
      by_cases hms : (gasSeedStep (aliasTrackStep c (IROp.typeConversion lv v))
          (IROp.typeConversion lv v)).isMsgSender v = true
      · rw [if_pos hms]
        exact PM_markMsgSenderAlias _ lv
      · rw [if_neg hms]
        exact PM_rfl _
  | index lv l r =>
    unfold processIRCore at hrun
    dsimp only at hrun
    cases hrun
    refine ReasonOK_of_PM ?_ hprep
    dsimp only
    split
    · exact PM_mark _ lv
    · exact PM_rfl _
  | unpack lv t =>
    unfold processIRCore at hrun
    dsimp only at hrun
    cases hrun
    refine ReasonOK_of_PM ?_ hprep
    dsimp only
    split
    · exact PM_mark _ lv
    · exact PM_rfl _
  | solidityCall fname args lvOpt =>
    unfold processIRCore at hrun
    dsimp only at hrun
    split at hrun
    · cases hrun
      exact ReasonOK_of_PM (PM_markLvalue _ lvOpt) hprep
    · split at hrun
      · cases hrun
        exact ReasonOK_of_PM (PM_markLvalue _ lvOpt) hprep
      · split at hrun
        · cases hrun
          refine ReasonOK_of_PM ?_ hprep
          match lvOpt with
          | some lv => exact PM_markIfAnyTainted _ (some lv) args
          | none => exact PM_rfl _
        · cases hrun
          exact ReasonOK_of_PM (PM_genericStep _ _) hprep
  | newContract lvOpt salt args =>
    unfold processIRCore at hrun
    dsimp only at hrun
    split at hrun
    · cases hrun
      exact ReasonOK_of_PM (PM_markLvalue _ lvOpt) hprep
    · cases hrun
      exact ReasonOK_of_PM (PM_genericStep _ _) hprep
  | condition v =>
    unfold processIRCore at hrun
    dsimp only at hrun
    cases hrun
    exact hprep
  | other lvOpt reads =>
    unfold processIRCore at hrun
    dsimp only at hrun
    cases hrun
    exact ReasonOK_of_PM (PM_genericStep _ _) hprep

theorem postPassStep_reasonOK (env : Env) (node : IRNode) {f : Func} {c : Ctx}
    (ir : IROp) (h : ReasonOK env f c) : ReasonOK env f (postPassStep env node c ir) := by
  unfold postPassStep
  split
  · split
    · exact recordStateWrite_reasonOK env _ node h
    · exact h
  · exact h

theorem processIRs_reasonOK (A : AnalyzeFn) (env : Env) (node : IRNode) {f : Func} :
    ∀ (irs : List IROp) (c : Ctx) (ctc : CTC) (csc : CSC) (out : Ctx × CTC × CSC),
      processIRs A env node irs c ctc csc = some out →
      ReasonOK env f c → ReasonOK env f out.1 := by
  intro irs
  induction irs with
  | nil =>
    intro c ctc csc out hrun h
    cases hrun
    exact h
  | cons ir rest ih =>
    intro c ctc csc out hrun h
    rw [processIRs] at hrun
    cases hv : processIRCore A env node ir c ctc csc with
    | none => rw [hv] at hrun; cases hrun
    | some triple =>
      rw [hv] at hrun
      obtain ⟨c1, ctc1, csc1⟩ := triple
      exact ih c1 ctc1 csc1 out hrun (processIR_reasonOK A env node ir ctc csc _ hv h)

theorem processNode_reasonOK (A : AnalyzeFn) (env : Env) (node : IRNode)
    {f : Func} {c : Ctx} (ctc : CTC) (csc : CSC) (out : Ctx × CTC × CSC)
    (hrun : processNodeDataFlowCore A env node c ctc csc = some out)
    (h : ReasonOK env f c) : ReasonOK env f out.1 := by
  unfold processNodeDataFlowCore at hrun
  cases hv : processIRs A env node node.irs c ctc csc with
  | none => rw [hv] at hrun; cases hrun
  | some triple =>
    rw [hv] at hrun
    obtain ⟨c1, ctc1, csc1⟩ := triple
    dsimp only at hrun
    cases hrun
    have h1 : ReasonOK env f c1 :=
      processIRs_reasonOK A env node node.irs c ctc csc _ hv h
    show ReasonOK env f (recordNodeStateWrites env node node.irs c1)
    rw [recordNodeStateWrites_eq_fold]
    exact foldl_pres (ReasonOK env f) (postPassStep env node)
      (fun b a hb => postPassStep_reasonOK env node a hb) node.irs c1 h1

theorem analyzeNodes_reasonOK (A : AnalyzeFn) (env : Env) {f : Func} :
    ∀ (nodes : List IRNode) (c : Ctx) (ctc : CTC) (csc : CSC) (out : Ctx × CTC × CSC),
      analyzeNodes A env nodes c ctc csc = some out →
      ReasonOK env f c → ReasonOK env f out.1 := by
  intro nodes
  induction nodes with
  | nil =>
    intro c ctc csc out hrun h
    cases hrun
    exact h
  | cons n rest ih =>
    intro c ctc csc out hrun h
    rw [analyzeNodes] at hrun
    cases hv : processNodeDataFlowCore A env n c ctc csc with
    | none => rw [hv] at hrun; cases hrun
    | some triple =>
      rw [hv] at hrun
      obtain ⟨c1, ctc1, csc1⟩ := triple
      exact ih c1 ctc1 csc1 out hrun (processNode_reasonOK A env n ctc csc _ hv h)

theorem cfRecordNode_reasonOK (env : Env) {f : Func} (bn : IRNode) {c : Ctx}
    (h : ReasonOK env f c) : ReasonOK env f (cfRecordNode env c bn) :=
  foldl_pres (ReasonOK env f) (cfRecordSV env bn)
    (fun b a hb => cfRecordSV_reasonOK env bn a hb) bn.stateVariablesWritten c h

theorem cfNodeStep_reasonOK (env : Env) (g : Func) {f : Func} (node : IRNode)
    {c : Ctx} (h : ReasonOK env f c) : ReasonOK env f (cfNodeStep env g c node) := by
  unfold cfNodeStep
  dsimp only
  split
  · split
    · refine foldl_pres (ReasonOK env f) (cfRecordNode env)
        (fun b a hb => cfRecordNode_reasonOK env a hb) _ _ ?_
      exact ReasonOK_of_PM (PM_scanIf_ctx c node.irs) h
    · exact ReasonOK_of_PM (PM_scanIf_ctx c node.irs) h
  · exact h

theorem propagateCF_reasonOK (env : Env) (g : Func) {f : Func} {c : Ctx}
    (h : ReasonOK env f c) : ReasonOK env f (propagateControlFlowTaint env g c) :=
  foldl_pres (ReasonOK env f) (cfNodeStep env g)
    (fun b a hb => cfNodeStep_reasonOK env g a hb) g.nodes c h

theorem removeOverwritten_reasonOK (env : Env) (g : Func) {f : Func} {c : Ctx}
    (h : ReasonOK env f c) : ReasonOK env f (removeOverwrittenFindings env g c) := by
  obtain ⟨r1, r2, r3⟩ := h
  unfold removeOverwrittenFindings
  split
  · exact ⟨r1, r2, r3⟩
  · dsimp only
    split
    · exact ⟨r1, r2, r3⟩
    · refine ⟨r1, r2, ?_⟩
      intro w hw
      exact r3 w (List.mem_of_mem_filter hw)

/-- C6 (claim): every finding returned by a function's analysis carries
the same reason string — the memoised, lexicographically sorted and
`", "`-joined set of source labels collected from the function and its
directly-or-transitively called internal functions, or `"tainted source"`
when that set is empty (this is the definition of `reasonString`). -/
theorem C6_reason_uniform (fuel : Nat) (env : Env) (f : Func) (ctc : CTC) (csc : CSC)
    (out : List Finding × CTC × CSC)
    (h : analyzeFunction fuel env f ctc csc = some out) :
    ∀ w ∈ out.1, w.2.2 = reasonString env f := by
  cases fuel with
  | zero => cases h
  | succ fuel =>
    rw [analyzeFunction] at h
    cases hn : analyzeNodes (fun g ctc csc => analyzeFunction fuel env g ctc csc)
        env f.nodes (initCtx f) ctc csc with
    | none => rw [hn] at h; cases h
    | some st =>
      rw [hn] at h
      obtain ⟨c1, ctc1, csc1⟩ := st
      dsimp only at h
      cases h
      have h0 : ReasonOK env f (initCtx f) := by
        refine ⟨rfl, Or.inl rfl, ?_⟩
        intro w hw
        simp [initCtx] at hw
      have h1 : ReasonOK env f c1 :=
        analyzeNodes_reasonOK _ env f.nodes (initCtx f) ctc csc _ hn h0
      have h2 := propagateCF_reasonOK env f h1
      have h3 := removeOverwritten_reasonOK env f h2
      exact h3.2.2

/-- Witness for C6: the single finding of the gasleft example carries the
function-level reason string. -/
theorem C6_witness :
    (("C.gasSnapshot", (1 : Nat), "gasleft()") : Finding).2.2 =
      reasonString envGas fGas := by
  refine C6_reason_uniform 3 envGas fGas [] []
    ((analyzeFunction 3 envGas fGas [] []).getD ([], [], [])) (by rfl)
    ("C.gasSnapshot", 1, "gasleft()") (by decide)

/-! ### Call-taint-cache invariants (claim C3) -/

/-- Old cache entries keep their values (entries are write-once). -/
def CtcSub (ctc ctc' : CTC) : Prop :=
  ∀ k b, lookupB ctc k = some b → lookupB ctc' k = some b

/-- Every cache entry holds the value of `_callee_introduces_taint` for
the function its key resolves to. -/
def CtcWF (env : Env) (ctc : CTC) : Prop :=
  ∀ k b, lookupB ctc k = some b → ∀ g, lookupFunc env k = some g →
    b = calleeIntroducesTaint g

/-- The cache discipline an analysis function maintains. -/
def PreservesCtc (env : Env) (A : AnalyzeFn) : Prop :=
  ∀ g ctc csc out, A g ctc csc = some out →
    CtcSub ctc out.2.1 ∧ (CtcWF env ctc → CtcWF env out.2.1)

theorem lookupB_cons_self (k : String) (b : Bool) (ctc : CTC) :
    lookupB ((k, b) :: ctc) k = some b := by
  simp [lookupB]

theorem lookupB_cons_ne (k k' : String) (b : Bool) (ctc : CTC) (h : k ≠ k') :
    lookupB ((k, b) :: ctc) k' = lookupB ctc k' := by
  unfold lookupB
  rw [List.find?_cons]
  have hbe : ((k, b).1 == k') = false := by
    simpa using h
  rw [hbe]

theorem lookupB_some_ne_of_none {ctc : CTC} {ck k : String} {b : Bool}
    (hnone : lookupB ctc ck = none) (hsome : lookupB ctc k = some b) : k ≠ ck := by
  intro h
  rw [h, hnone] at hsome
  cases hsome

/-- The callee found by name carries that name and resolves to itself. -/
theorem lookupFunc_self {env : Env} {nm : String} {g : Func}
    (h : lookupFunc env nm = some g) :
    g.canonicalName = nm ∧ lookupFunc env g.canonicalName = some g := by
  have hp := List.find?_some h
  have hcan : g.canonicalName = nm := by simpa using hp
  exact ⟨hcan, by rw [hcan]; exact h⟩

/-- The `if callee_key not in call_taint_cache` step of
`_handle_internal_call`. -/
def ensureCtc (callee : Func) (ctc : CTC) : CTC :=
  if (lookupB ctc callee.canonicalName).isSome = true then ctc
  else (callee.canonicalName, calleeIntroducesTaint callee) :: ctc

theorem ensureCtc_lookup (env : Env) (callee : Func) (ctc : CTC)
    (hwf : CtcWF env ctc)
    (hfind : lookupFunc env callee.canonicalName = some callee) :
    lookupB (ensureCtc callee ctc) callee.canonicalName =
      some (calleeIntroducesTaint callee) := by
  unfold ensureCtc
  cases hl : lookupB ctc callee.canonicalName with
  | some b =>
    rw [if_pos (show (some b).isSome = true from rfl)]
    rw [hl, hwf _ _ hl callee hfind]
  | none =>
    rw [if_neg (show ¬(none : Option Bool).isSome = true from (by simp))]
    exact lookupB_cons_self _ _ _

theorem ensureCtc_sub (callee : Func) (ctc : CTC) :
    CtcSub ctc (ensureCtc callee ctc) := by
  intro k b h
  unfold ensureCtc
  split
  · exact h
  · rename_i hns
    have hnone : lookupB ctc callee.canonicalName = none := by
      cases hv : lookupB ctc callee.canonicalName
      · rfl
      · rw [hv] at hns; simp at hns
    have hne := lookupB_some_ne_of_none hnone h
    rw [lookupB_cons_ne _ _ _ _ (fun he => hne he.symm)]
    exact h

theorem ensureCtc_wf (env : Env) (callee : Func) (ctc : CTC)
    (hfind : lookupFunc env callee.canonicalName = some callee)
    (hwf : CtcWF env ctc) : CtcWF env (ensureCtc callee ctc) := by
  unfold ensureCtc
  split
  · exact hwf
  · intro k b h g hg
    by_cases hk : k = callee.canonicalName
    · subst hk
      rw [lookupB_cons_self] at h
      cases h
      rw [hfind] at hg
      cases hg
      rfl
    · rw [lookupB_cons_ne _ _ _ _ (fun he => hk he.symm)] at h
      exact hwf k b h g hg

theorem ctsv_preservesCtc {env : Env} {A : AnalyzeFn} (hA : PreservesCtc env A)
    (g : Func) (ctc : CTC) (csc : CSC) (out : List String × CTC × CSC)
    (h : calleeTaintedStateVarsCore A env g ctc csc = some out) :
    CtcSub ctc out.2.1 ∧ (CtcWF env ctc → CtcWF env out.2.1) := by
  unfold calleeTaintedStateVarsCore at h
  dsimp only at h
  cases hl : lookupS csc g.canonicalName with
  | some v =>
    rw [hl] at h
    cases h
    exact ⟨fun k b hb => hb, fun w => w⟩
  | none =>
    rw [hl] at h
    dsimp only at h
    split at h
    · cases h
      exact ⟨fun k b hb => hb, fun w => w⟩
    · cases hA2 : A g ctc ((g.canonicalName, ([] : List String)) :: csc) with
      | none => rw [hA2] at h; cases h
      | some out2 =>
        rw [hA2] at h
        obtain ⟨w2, ctc2, csc2⟩ := out2
        dsimp only at h
        cases h
        exact hA g ctc _ _ hA2

theorem hic_ctc_value {env : Env} {A : AnalyzeFn} (hA : PreservesCtc env A)
    (lvOpt : Option Var) (nm : String) (args : List Var) (c : Ctx) (ctc : CTC)
    (csc : CSC) (out : Ctx × CTC × CSC) (g : Func)
    (hg : lookupFunc env nm = some g)
    (h : handleInternalCallCore A env lvOpt (some nm) args c ctc csc = some out)
    (hwf : CtcWF env ctc) :
    lookupB out.2.1 g.canonicalName = some (calleeIntroducesTaint g) ∧
    CtcWF env out.2.1 ∧ CtcSub ctc out.2.1 := by
  unfold handleInternalCallCore at h
  have hbind : (some nm).bind (lookupFunc env) = some g := by simpa using hg
  rw [hbind] at h
  dsimp only at h
  obtain ⟨hcan, hfind⟩ := lookupFunc_self hg
  cases hv : calleeTaintedStateVarsCore A env g
      (if (lookupB ctc g.canonicalName).isSome = true then ctc
       else (g.canonicalName, calleeIntroducesTaint g) :: ctc) csc with
  | none => rw [hv] at h; cases h
  | some triple =>
    rw [hv] at h
    obtain ⟨svs, ctc2, csc2⟩ := triple
    dsimp only at h
    cases h
    have hens : lookupB (ensureCtc g ctc) g.canonicalName =
        some (calleeIntroducesTaint g) := ensureCtc_lookup env g ctc hwf hfind
    have hctsv := ctsv_preservesCtc hA g (ensureCtc g ctc) csc _ hv
    exact ⟨hctsv.1 _ _ hens, hctsv.2 (ensureCtc_wf env g ctc hfind hwf),
      fun k b hb => hctsv.1 k b (ensureCtc_sub g ctc k b hb)⟩

theorem hic_preservesCtc {env : Env} {A : AnalyzeFn} (hA : PreservesCtc env A)
    (lvOpt : Option Var) (cname : Option String) (args : List Var) (c : Ctx)
    (ctc : CTC) (csc : CSC) (out : Ctx × CTC × CSC)
    (h : handleInternalCallCore A env lvOpt cname args c ctc csc = some out) :
    CtcSub ctc out.2.1 ∧ (CtcWF env ctc → CtcWF env out.2.1) := by
  unfold handleInternalCallCore at h
  cases hc : cname.bind (lookupFunc env) with
  | none =>
    rw [hc] at h
    cases h
    exact ⟨fun k b hb => hb, fun w => w⟩
  | some callee =>
    rw [hc] at h
    dsimp only at h
    rcases Option.bind_eq_some.mp hc with ⟨nm, _, hfind0⟩
    obtain ⟨hcan, hfind⟩ := lookupFunc_self hfind0
    cases hv : calleeTaintedStateVarsCore A env callee
        (if (lookupB ctc callee.canonicalName).isSome = true then ctc
         else (callee.canonicalName, calleeIntroducesTaint callee) :: ctc) csc with
    | none => rw [hv] at h; cases h
    | some triple =>
      rw [hv] at h
      obtain ⟨svs, ctc2, csc2⟩ := triple
      dsimp only at h
      cases h
      have hctsv := ctsv_preservesCtc hA callee (ensureCtc callee ctc) csc _ hv
      refine ⟨fun k b hb => hctsv.1 k b (ensureCtc_sub callee ctc k b hb), fun hwf => ?_⟩
      exact hctsv.2 (ensureCtc_wf env callee ctc hfind hwf)

theorem processIR_preservesCtc {env : Env} {A : AnalyzeFn} (hA : PreservesCtc env A)
    (node : IRNode) (ir : IROp) (c : Ctx) (ctc : CTC) (csc : CSC)
    (out : Ctx × CTC × CSC)
    (h : processIRCore A env node ir c ctc csc = some out) :
    CtcSub ctc out.2.1 ∧ (CtcWF env ctc → CtcWF env out.2.1) := by
  cases ir with
  | internalCall lvOpt cname args =>
    exact hic_preservesCtc hA lvOpt cname args _ ctc csc out h
  | assignment lv rv =>
    unfold processIRCore at h
    dsimp only at h
    split at h <;> (cases h; exact ⟨fun k b hb => hb, fun w => w⟩)
  | binary lv l r =>
    unfold processIRCore at h
    dsimp only at h
    cases h
    exact ⟨fun k b hb => hb, fun w => w⟩
  | unary lv rv =>
    unfold processIRCore at h
    dsimp only at h
    cases h
    exact ⟨fun k b hb => hb, fun w => w⟩
  | typeConversion lv v =>
    unfold processIRCore at h
    dsimp only at h
    cases h
    exact ⟨fun k b hb => hb, fun w => w⟩
  | index lv l r =>
    unfold processIRCore at h
    dsimp only at h
    cases h
    exact ⟨fun k b hb => hb, fun w => w⟩
  | unpack lv t =>
    unfold processIRCore at h
    dsimp only at h
    cases h
    exact ⟨fun k b hb => hb, fun w => w⟩
  | solidityCall fname args lvOpt =>
    unfold processIRCore at h
    dsimp only at h
    split at h
    · cases h; exact ⟨fun k b hb => hb, fun w => w⟩
    · split at h
      · cases h; exact ⟨fun k b hb => hb, fun w => w⟩
      · split at h <;> (cases h; exact ⟨fun k b hb => hb, fun w => w⟩)
  | newContract lvOpt salt args =>
    unfold processIRCore at h
    dsimp only at h
    split at h <;> (cases h; exact ⟨fun k b hb => hb, fun w => w⟩)
  | condition v =>
    unfold processIRCore at h
    dsimp only at h
    cases h
    exact ⟨fun k b hb => hb, fun w => w⟩
  | other lvOpt reads =>
    unfold processIRCore at h
    dsimp only at h
    cases h
    exact ⟨fun k b hb => hb, fun w => w⟩

theorem processIRs_preservesCtc {env : Env} {A : AnalyzeFn} (hA : PreservesCtc env A)
    (node : IRNode) :
    ∀ (irs : List IROp) (c : Ctx) (ctc : CTC) (csc : CSC) (out : Ctx × CTC × CSC),
      processIRs A env node irs c ctc csc = some out →
      CtcSub ctc out.2.1 ∧ (CtcWF env ctc → CtcWF env out.2.1) := by
  intro irs
  induction irs with
  | nil =>
    intro c ctc csc out h
    cases h
    exact ⟨fun k b hb => hb, fun w => w⟩
  | cons ir rest ih =>
    intro c ctc csc out h
    rw [processIRs] at h
    cases hv : processIRCore A env node ir c ctc csc with
    | none => rw [hv] at h; cases h
    | some triple =>
      rw [hv] at h
      obtain ⟨c1, ctc1, csc1⟩ := triple
      have h1 := processIR_preservesCtc hA node ir c ctc csc _ hv
      have h2 := ih c1 ctc1 csc1 out h
      exact ⟨fun k b hb => h2.1 k b (h1.1 k b hb), fun w => h2.2 (h1.2 w)⟩

theorem processNode_preservesCtc {env : Env} {A : AnalyzeFn} (hA : PreservesCtc env A)
    (node : IRNode) (c : Ctx) (ctc : CTC) (csc : CSC) (out : Ctx × CTC × CSC)
    (h : processNodeDataFlowCore A env node c ctc csc = some out) :
    CtcSub ctc out.2.1 ∧ (CtcWF env ctc → CtcWF env out.2.1) := by
  unfold processNodeDataFlowCore at h
  cases hv : processIRs A env node node.irs c ctc csc with
  | none => rw [hv] at h; cases h
  | some triple =>
    rw [hv] at h
    obtain ⟨c1, ctc1, csc1⟩ := triple
    dsimp only at h
    cases h
    exact processIRs_preservesCtc hA node node.irs c ctc csc (c1, ctc1, csc1) hv

theorem analyzeNodes_preservesCtc {env : Env} {A : AnalyzeFn} (hA : PreservesCtc env A) :
    ∀ (nodes : List IRNode) (c : Ctx) (ctc : CTC) (csc : CSC) (out : Ctx × CTC × CSC),
      analyzeNodes A env nodes c ctc csc = some out →
      CtcSub ctc out.2.1 ∧ (CtcWF env ctc → CtcWF env out.2.1) := by
  intro nodes
  induction nodes with
  | nil =>
    intro c ctc csc out h
    cases h
    exact ⟨fun k b hb => hb, fun w => w⟩
  | cons n rest ih =>
    intro c ctc csc out h
    rw [analyzeNodes] at h
    cases hv : processNodeDataFlowCore A env n c ctc csc with
    | none => rw [hv] at h; cases h
    | some triple =>
      rw [hv] at h
      obtain ⟨c1, ctc1, csc1⟩ := triple
      have h1 := processNode_preservesCtc hA n c ctc csc _ hv
      have h2 := ih c1 ctc1 csc1 out h
      exact ⟨fun k b hb => h2.1 k b (h1.1 k b hb), fun w => h2.2 (h1.2 w)⟩

theorem analyzeFunction_preservesCtc (env : Env) :
    ∀ fuel, PreservesCtc env (analyzeFunction fuel env) := by
  intro fuel
  induction fuel with
  | zero => intro g ctc csc out h; cases h
  | succ fuel ih =>
    intro g ctc csc out h
    rw [analyzeFunction] at h
    cases hn : analyzeNodes (analyzeFunction fuel env) env g.nodes (initCtx g) ctc csc with
    | none => rw [hn] at h; cases h
    | some st =>
      rw [hn] at h
      obtain ⟨c1, ctc1, csc1⟩ := st
      dsimp only at h
      cases h
      exact analyzeNodes_preservesCtc ih g.nodes (initCtx g) ctc csc _ hn

/-- C3 (amended): when an internal call to `g` is processed, the cache
entry for `g` is present afterwards and equals `_callee_introduces_taint g`
— the scan that recognises a `gasleft()` call, a `balance(address)` call
whose argument is literally the `msg.sender` builtin (recorded sender
aliases are NOT recognised by this scan), a `NewContract` with non-null
salt, or a read of a gas-global builtin.  The cache is write-once: every
pre-existing entry keeps its value, and all entries agree with the scan of
the function their key resolves to. -/
theorem C3_amended_call_cache (env : Env) (fuel : Nat) (node : IRNode)
    (lvOpt : Option Var) (nm : String) (args : List Var) (g : Func) (c : Ctx)
    (ctc : CTC) (csc : CSC) (out : Ctx × CTC × CSC)
    (hg : lookupFunc env nm = some g)
    (hrun : processIRCore (analyzeFunction fuel env) env node
      (IROp.internalCall lvOpt (some nm) args) c ctc csc = some out)
    (hwf : CtcWF env ctc) :
    lookupB out.2.1 g.canonicalName = some (calleeIntroducesTaint g) ∧
    CtcWF env out.2.1 ∧ CtcSub ctc out.2.1 :=
  hic_ctc_value (analyzeFunction_preservesCtc env fuel) lvOpt nm args _ ctc csc out g
    hg hrun hwf

/-- Witness for the amended C3 at the alias-balance example. -/
theorem C3_amended_witness :
    lookupB ((processIRCore (analyzeFunction 2 envC3) envC3 nodeC3 callIrC3
        (initCtx fFuncC3) [] []).getD (initCtx fFuncC3, [], [])).2.1
      gFuncC3.canonicalName = some (calleeIntroducesTaint gFuncC3) := by
  have hwf : CtcWF envC3 [] := by
    intro k b hb g hg
    simp [lookupB] at hb
  exact (C3_amended_call_cache envC3 2 nodeC3 (some (.loc 9)) "C.g" [] gFuncC3
    (initCtx fFuncC3) [] [] _ (by rfl) (by rfl) hwf).1

/-! ### Driver deduplication (claim C8) -/

/-- Driver state: results, the two caches, and the `(variable, function)`
dedup set. -/
abbrev DetSt := List TSResult × CTC × CSC × List (String × String)

/-- Invariant of the driver loops: result keys are pairwise distinct and
all of them are registered in `seen`. -/
def DetInv (st : DetSt) : Prop :=
  (st.1.map (fun r => (r.variableName, r.functionName))).Nodup ∧
  ∀ r ∈ st.1, (r.variableName, r.functionName) ∈ st.2.2.2

theorem nodup_concat {α : Type _} {l : List α} {x : α} (hn : l.Nodup) (hx : x ∉ l) :
    (l ++ [x]).Nodup := by
  rw [List.nodup_append]
  refine ⟨hn, List.nodup_singleton x, ?_⟩
  intro a ha hax
  rw [List.mem_singleton] at hax
  subst hax
  exact hx ha

/-- The per-finding invariant of `detectWriteStep` over the
`(results, seen)` pair. -/
def WInv (st : List TSResult × List (String × String)) : Prop :=
  (st.1.map (fun r => (r.variableName, r.functionName))).Nodup ∧
  ∀ r ∈ st.1, (r.variableName, r.functionName) ∈ st.2

theorem detectWriteStep_winv (cu : CompilationUnit) (contract : ContractT)
    (f : Func) (st : List TSResult × List (String × String)) (w : Finding)
    (h : WInv st) : WInv (detectWriteStep cu contract f st w) := by
  obtain ⟨hn, hs⟩ := h
  unfold detectWriteStep
  dsimp only
  split
  · exact ⟨hn, hs⟩
  · rename_i hkey
    constructor
    · rw [List.map_append]
      refine nodup_concat hn ?_
      intro hmem
      rcases List.mem_map.mp hmem with ⟨r, hr, hrk⟩
      have hrk2 : (r.variableName, r.functionName) = (w.1, f.canonicalName) := hrk
      exact hkey (hrk2 ▸ hs r hr)
    · intro r hr
      rcases List.mem_append.mp hr with h1 | h1
      · exact List.mem_cons_of_mem _ (hs r h1)
      · rw [List.mem_singleton] at h1
        subst h1
        exact List.mem_cons_self _ _

theorem detectFuncs_inv (env : Env) (cu : CompilationUnit) (contract : ContractT) :
    ∀ (fs : List Func) (st out : DetSt),
      detectFuncs env cu contract fs st = some out → DetInv st → DetInv out := by
  intro fs
  induction fs with
  | nil =>
    intro st out h hi
    cases h
    exact hi
  | cons f rest ih =>
    intro st out h hi
    obtain ⟨results, ctc, csc, seen⟩ := st
    rw [detectFuncs] at h
    split at h
    · exact ih _ out h hi
    · cases ha : analyzeFunction (env.funcs.length + 2) env f ctc csc with
      | none => rw [ha] at h; cases h
      | some triple =>
        rw [ha] at h
        obtain ⟨writes, ctc2, csc2⟩ := triple
        dsimp only at h
        have hfold : WInv (writes.foldl (detectWriteStep cu contract f) (results, seen)) :=
          foldl_pres WInv (detectWriteStep cu contract f)
            (fun b a hb => detectWriteStep_winv cu contract f b a hb) writes
            (results, seen) ⟨hi.1, hi.2⟩
        exact ih _ out h ⟨hfold.1, hfold.2⟩

theorem detectContracts_inv (env : Env) (cu : CompilationUnit) :
    ∀ (cs : List ContractT) (st out : DetSt),
      detectContracts env cu cs st = some out → DetInv st → DetInv out := by
  intro cs
  induction cs with
  | nil =>
    intro st out h hi
    cases h
    exact hi
  | cons contract rest ih =>
    intro st out h hi
    rw [detectContracts] at h
    cases hf : detectFuncs env cu contract (analyzableFuncs contract) st with
    | none => rw [hf] at h; cases h
    | some st2 =>
      rw [hf] at h
      exact ih st2 out h (detectFuncs_inv env cu contract _ st st2 hf hi)

/-- C8 (claim): across one driver invocation at most one result is
emitted per `(state variable canonical_name, function canonical_name)`
pair — the emitted results' keys are pairwise distinct. -/
theorem C8_driver_dedup (env : Env) (cu : CompilationUnit) (results : List TSResult)
    (h : detect env cu = some results) :
    (results.map (fun r => (r.variableName, r.functionName))).Nodup := by
  unfold detect at h
  cases hd : detectContracts env cu cu.contractsDerived ([], [], [], []) with
  | none => rw [hd] at h; cases h
  | some st =>
    rw [hd] at h
    cases h
    have hi : DetInv (([] : List TSResult), ([] : CTC), ([] : CSC),
        ([] : List (String × String))) := by
      constructor
      · simp
      · intro r hr
        simp at hr
    exact (detectContracts_inv env cu cu.contractsDerived _ st hd hi).1

/-- Witness for C8 on the concrete gasleft compilation unit. -/
theorem C8_witness :
    (((detect envGas cuGasLayout).getD []).map
      (fun r => (r.variableName, r.functionName))).Nodup :=
  C8_driver_dedup envGas cuGasLayout _ (by rfl)

end TS
